import Mathlib

/-!
Verification development for the Windows CE libusb backend
(`libusb/os/wince_usb.c`).  The C code is shallowly embedded: machine
integers become `Nat`/`Int` with explicit `% 2^w` where overflow matters,
C strings become lists of byte values, the global mutable state of the
hash table becomes an explicit state record, and the OS primitives that
the clock service and the init path call (event/semaphore/mutex/thread
creation, `WaitForSingleObject`) are driven by explicit oracles listing
their outcomes.
-/

set_option linter.unusedVariables false

namespace WinceUsb

/-! ### libusb error codes (numeric values from the public libusb API) -/

def LIBUSB_SUCCESS : Int := 0

def LIBUSB_ERROR_INVALID_PARAM : Int := -2

def LIBUSB_ERROR_NO_MEM : Int := -11

def LIBUSB_ERROR_NOT_SUPPORTED : Int := -12

def LIBUSB_ERROR_OTHER : Int := -99

/-! ### Timestamps and the real-time clock computation

`struct timespec` with `tv_sec`/`tv_nsec` of C type `long` (32-bit on the
target).  `toLong` models the C cast `(long)` applied to an unsigned
64-bit quantity: truncation to 32 bits, then two's-complement reading. -/

structure timespec where
  tv_sec : Int
  tv_nsec : Int
deriving DecidableEq

/-- The C cast `(long)x` for an unsigned 64-bit `x`: keep the low 32 bits
and reinterpret as a signed 32-bit value. -/
def toLong (n : Nat) : Int :=
  let m : Nat := n % 2 ^ 32
  if m < 2 ^ 31 then (m : Int) else (m : Int) - 2 ^ 32

/-- `epoch_time` from the source: 1970-01-01 00:00 in MS FILETIME units
(100 ns intervals since 1601). -/
def epoch_time : Nat := 116444736000000000

/-- The `USBI_CLOCK_REALTIME` computation of `wince_clock_gettime`:
take the current FILETIME (an unsigned 64-bit count of 100 ns units),
subtract `epoch_time` with unsigned wrap-around, and split into seconds
and nanoseconds. -/
def realtime_timespec (filetime : Nat) : timespec :=
  let rtime := (filetime + 2 ^ 64 - epoch_time) % 2 ^ 64
  { tv_sec := toLong (rtime / 10000000)
    tv_nsec := toLong (rtime % 10000000 * 100) }

/-! ### The caller side of the clock service (`wince_clock_gettime`)

The clock id is one of `USBI_CLOCK_MONOTONIC`, `USBI_CLOCK_REALTIME`, or
any other value (the `default` arm of the C `switch`); the three classes
are modelled by an inductive.  Each call to
`WaitForSingleObject(timer_response, TIMER_REQUEST_RETRY_MS)` yields
`WAIT_OBJECT_0`, `WAIT_TIMEOUT` or some other (failure) value; the
successive outcomes are an input list.  The observable side effects of
the monotonic path are recorded in a trace. -/

inductive clk_id_t where
  | monotonic
  | realtime
  | otherId (code : Int)
deriving DecidableEq

inductive WaitOutcome where
  | object0
  | timeout
  | failed
deriving DecidableEq

inductive ClockEffect where
  | incrementRequest
  | signalEvent
  | waitResponse
  | lockMutex
  | unlockMutex
deriving DecidableEq

structure ClockEnv where
  hires_frequency : Nat
  filetime : Nat
  timer_tp : timespec
  waits : List WaitOutcome
deriving DecidableEq

/-- The `while (1)` retry loop of the `USBI_CLOCK_MONOTONIC` arm.  The
first component is `none` when the loop is still running after consuming
every provided wait outcome (the code never exits on timeouts alone). -/
def monotonic_loop (tp : timespec) :
    List WaitOutcome → Option (Int × Option timespec) × List ClockEffect
  | [] => (none, [])
  | w :: rest =>
    match w with
    | .object0 =>
      (some (LIBUSB_SUCCESS, some tp),
        [.incrementRequest, .signalEvent, .waitResponse, .lockMutex, .unlockMutex])
    | .failed =>
      (some (LIBUSB_ERROR_OTHER, none),
        [.incrementRequest, .signalEvent, .waitResponse])
    | .timeout =>
      let r := monotonic_loop tp rest
      (r.1, [ClockEffect.incrementRequest, .signalEvent, .waitResponse] ++ r.2)

/-- `wince_clock_gettime`.  Result: possibly-diverging return code, the
value stored through `*tp` (`none` when `*tp` is not written), and the
trace of hand-off effects. -/
def wince_clock_gettime (env : ClockEnv) (clk : clk_id_t) :
    Option (Int × Option timespec) × List ClockEffect :=
  match clk with
  | .monotonic =>
    if env.hires_frequency ≠ 0 then
      monotonic_loop env.timer_tp env.waits
    else
      (some (LIBUSB_SUCCESS, some (realtime_timespec env.filetime)), [])
  | .realtime =>
    (some (LIBUSB_SUCCESS, some (realtime_timespec env.filetime)), [])
  | .otherId _ =>
    (some (LIBUSB_ERROR_INVALID_PARAM, none), [])

/-! ### Stubbed operations (always `LIBUSB_ERROR_NOT_SUPPORTED`) -/

def wince_reset_device (handle : Nat) : Int := LIBUSB_ERROR_NOT_SUPPORTED

def wince_kernel_driver_active (handle : Nat) (interface_number : Int) : Int :=
  LIBUSB_ERROR_NOT_SUPPORTED

def wince_detach_kernel_driver (handle : Nat) (interface_number : Int) : Int :=
  LIBUSB_ERROR_NOT_SUPPORTED

def wince_attach_kernel_driver (handle : Nat) (interface_number : Int) : Int :=
  LIBUSB_ERROR_NOT_SUPPORTED

def wince_submit_transfer (itransfer : Nat) : Int := LIBUSB_ERROR_NOT_SUPPORTED

def wince_cancel_transfer (itransfer : Nat) : Int := LIBUSB_ERROR_NOT_SUPPORTED

def wince_clear_transfer_priv (itransfer : Nat) : Int := LIBUSB_ERROR_NOT_SUPPORTED

def wince_handle_events (ctx : Nat) (fds : List Nat) (nfds : Nat) (num_ready : Int) : Int :=
  LIBUSB_ERROR_NOT_SUPPORTED

/-! ### The intern table: `isprime` and the `htab_create` sizing loop

On the target, `unsigned long` (the type of `nel`, `number`,
`htab_size`) and `unsigned int` (the type of `divider`) are both 32 bits
wide, so `divider * divider`, `divider + 2` and `nel += 2` all wrap
modulo `2^32`; the embedding keeps these wraps.  The `while` loops are
embedded with explicit fuel; the lemmas below never depend on the fuel
being larger than the number of iterations the C loop performs. -/

/-- `unsigned long` / `unsigned int` on the target are 32 bits wide. -/
def U32 : Nat := 2 ^ 32

/-- The trial-division loop of the C `isprime`:
`while ((divider * divider < number) && (number % divider != 0)) divider += 2;`
with 32-bit wrap-around on `divider * divider` and `divider + 2`. -/
def isprimeAux (number : Nat) : Nat → Nat → Nat
  | 0, divider => divider
  | fuel + 1, divider =>
    if divider * divider % U32 < number ∧ number % divider ≠ 0 then
      isprimeAux number fuel ((divider + 2) % U32)
    else divider

def isprime (number : Nat) : Bool :=
  decide (number % isprimeAux number number 3 ≠ 0)

/-- The `while(!isprime(nel)) nel += 2;` loop of `htab_create`, with the
32-bit wrap of `nel += 2` and explicit fuel. -/
def createLoopAux : Nat → Nat → Nat
  | 0, nel => nel
  | fuel + 1, nel =>
    if isprime nel then nel else createLoopAux fuel ((nel + 2) % U32)

/-- The size selected by `htab_create` for a requested capacity `nel`
(an `unsigned long`, so `nel < 2^32`): `nel |= 1`, then advance by 2
(wrapping modulo `2^32`) until `isprime` accepts. -/
def htab_create_size (nel : Nat) : Nat :=
  createLoopAux (nel ||| 1) (nel ||| 1)

/-- Proof-side classical trial division (no wrap).  Below the threshold
`number ≤ 65535^2` the divider provably never exceeds 65535, so the
embedded `isprimeAux` coincides with this loop (`isprimeAux_eq_trial`);
this helper is only a vehicle for the correctness lemmas. -/
def trialAux (number : Nat) : Nat → Nat → Nat
  | 0, divider => divider
  | fuel + 1, divider =>
    if divider * divider < number ∧ number % divider ≠ 0 then
      trialAux number fuel (divider + 2)
    else divider

theorem lor_one_of_even {n : Nat} (h : n % 2 = 0) : n ||| 1 = n + 1 := by
  apply Nat.eq_of_testBit_eq
  intro i
  rw [Nat.testBit_lor]
  cases i with
  | zero =>
    rw [Nat.testBit_zero, Nat.testBit_zero, Nat.testBit_zero]
    simp [h]
    omega
  | succ j =>
    rw [Nat.testBit_succ, Nat.testBit_succ, Nat.testBit_succ]
    have h2 : (n + 1) / 2 = n / 2 := by omega
    rw [h2]
    simp

theorem lor_one_of_odd {n : Nat} (h : n % 2 = 1) : n ||| 1 = n := by
  apply Nat.eq_of_testBit_eq
  intro i
  rw [Nat.testBit_lor]
  cases i with
  | zero =>
    rw [Nat.testBit_zero, Nat.testBit_zero]
    simp [h]
  | succ j =>
    rw [Nat.testBit_succ, Nat.testBit_succ]
    simp

theorem trialAux_le (n : Nat) : ∀ fuel d, d ≤ trialAux n fuel d := by
  intro fuel
  induction fuel with
  | zero => intro d; simp [trialAux]
  | succ f ih =>
    intro d
    simp only [trialAux]
    split
    · exact le_trans (by omega) (ih (d + 2))
    · exact le_refl d

/-- At the value `trialAux` returns, the loop condition has failed
(provided the fuel was large enough to reach `number`). -/
theorem trialAux_cond (n : Nat) :
    ∀ fuel d, n ≤ d + 2 * fuel →
      ¬(trialAux n fuel d * trialAux n fuel d < n ∧ n % trialAux n fuel d ≠ 0) := by
  intro fuel
  induction fuel with
  | zero =>
    intro d hle
    simp only [trialAux]
    rintro ⟨h1, -⟩
    rcases Nat.eq_zero_or_pos d with rfl | hd
    · omega
    · have : d ≤ d * d := Nat.le_mul_of_pos_left d hd
      omega
  | succ f ih =>
    intro d hle
    simp only [trialAux]
    split
    · exact ih (d + 2) (by omega)
    · next hcond => exact hcond

/-- Every candidate divider the loop stepped past satisfied the loop
condition: its square was below `n` and it did not divide `n`. -/
theorem trialAux_skipped (n : Nat) :
    ∀ fuel d e, d ≤ e → e < trialAux n fuel d → e % 2 = d % 2 →
      e * e < n ∧ n % e ≠ 0 := by
  intro fuel
  induction fuel with
  | zero =>
    intro d e h1 h2 _
    simp only [trialAux] at h2
    omega
  | succ f ih =>
    intro d e h1 h2 hpar
    simp only [trialAux] at h2
    by_cases hcond : d * d < n ∧ n % d ≠ 0
    · rw [if_pos hcond] at h2
      rcases Nat.eq_or_lt_of_le h1 with rfl | hlt
      · exact hcond
      · exact ih (d + 2) e (by omega) h2 (by omega)
    · rw [if_neg hcond] at h2
      omega

/-- Below `65535^2 = 4294836225` the 32-bit wraps in `isprimeAux` never
engage: an odd divider `≤ 65535` keeps its square below `2^32`, and the
loop condition keeps the divider at most 65533 before each step, so the
embedded loop coincides with classical trial division. -/
theorem isprimeAux_eq_trial (number : Nat) (hn : number ≤ 4294836225) :
    ∀ fuel d, d % 2 = 1 → d ≤ 65535 →
      isprimeAux number fuel d = trialAux number fuel d := by
  have hU : U32 = 4294967296 := by norm_num [U32]
  intro fuel
  induction fuel with
  | zero =>
    intro d _ _
    rfl
  | succ f ih =>
    intro d hodd hd
    have hdd : d * d < U32 := by
      have hmul : d * d ≤ 65535 * 65535 := Nat.mul_le_mul hd hd
      omega
    have hmod : d * d % U32 = d * d := Nat.mod_eq_of_lt hdd
    simp only [isprimeAux, trialAux, hmod]
    by_cases hc : d * d < number ∧ number % d ≠ 0
    · rw [if_pos hc, if_pos hc]
      obtain ⟨hc1, hc2⟩ := hc
      have hd2 : d + 2 ≤ 65535 := by
        rcases Nat.lt_or_ge d 65535 with hlt | hge
        · omega
        · exfalso
          have : 65535 * 65535 ≤ d * d := Nat.mul_le_mul hge hge
          omega
      have hnext : (d + 2) % U32 = d + 2 := Nat.mod_eq_of_lt (by omega)
      rw [hnext]
      exact ih (d + 2) (by omega) hd2
    · rw [if_neg hc, if_neg hc]

/-- `isprime` accepts every genuine prime `p` with `5 ≤ p ≤ 65535^2`
(below the wrap threshold the loop is classical trial division). -/
theorem isprime_of_prime {p : Nat} (hp : p.Prime) (h5 : 5 ≤ p)
    (hub : p ≤ 4294836225) : isprime p = true := by
  have hodd : p % 2 = 1 := Nat.odd_iff.mp (hp.odd_of_ne_two (by omega))
  have heq : isprimeAux p p 3 = trialAux p p 3 :=
    isprimeAux_eq_trial p hub p 3 (by norm_num) (by norm_num)
  rw [isprime, heq, decide_eq_true_iff]
  have h3 : 3 ≤ trialAux p p 3 := trialAux_le p p 3
  intro hmod
  have hdvd : trialAux p p 3 ∣ p := Nat.dvd_of_mod_eq_zero hmod
  rcases hp.eq_one_or_self_of_dvd _ hdvd with h1 | hself
  · omega
  · have hsk := trialAux_skipped p p 3 (p - 2) (by omega) (by omega) (by omega)
    have h32 : 3 ≤ p - 2 := by omega
    have hmul : 3 * (p - 2) ≤ (p - 2) * (p - 2) := Nat.mul_le_mul_right _ h32
    omega

/-- Conversely, an odd `p` with `5 ≤ p ≤ 65535^2` accepted by `isprime`
is a genuine prime.  (The exceptional inputs are 1, accepted though not
prime, and 3, rejected though prime; neither satisfies the
hypotheses.) -/
theorem prime_of_isprime {p : Nat} (h5 : 5 ≤ p) (hodd : p % 2 = 1)
    (hub : p ≤ 4294836225) (hpr : isprime p = true) : p.Prime := by
  by_contra hnp
  have heqt : isprimeAux p p 3 = trialAux p p 3 :=
    isprimeAux_eq_trial p hub p 3 (by norm_num) (by norm_num)
  have hq := Nat.minFac_prime (show p ≠ 1 by omega)
  have hqsq : p.minFac ^ 2 ≤ p := Nat.minFac_sq_le_self (by omega) hnp
  have hqdvd : p.minFac ∣ p := Nat.minFac_dvd p
  have hq2 : p.minFac ≠ 2 := by
    intro h2
    have h2d : (2 : Nat) ∣ p := h2 ▸ hqdvd
    have := Nat.mod_eq_zero_of_dvd h2d
    omega
  have hq3 : 3 ≤ p.minFac := by have := hq.two_le; omega
  have hqodd : p.minFac % 2 = 1 := Nat.odd_iff.mp (hq.odd_of_ne_two hq2)
  rw [isprime, heqt, decide_eq_true_iff] at hpr
  have hcond := trialAux_cond p p 3 (by omega)
  have hle : p ≤ trialAux p p 3 * trialAux p p 3 := by
    rcases Nat.lt_or_ge (trialAux p p 3 * trialAux p p 3) p with h | h
    · exact absurd ⟨h, hpr⟩ hcond
    · omega
  rcases Nat.lt_or_ge p.minFac (trialAux p p 3) with hlt | hge
  · have hsk := trialAux_skipped p p 3 p.minFac hq3 hlt (by omega)
    exact hsk.2 (Nat.mod_eq_zero_of_dvd hqdvd)
  · have h1 : trialAux p p 3 * trialAux p p 3 ≤ p.minFac * p.minFac :=
      Nat.mul_le_mul hge hge
    have h2 : p.minFac * p.minFac ≤ p := by
      have := hqsq
      rw [pow_two] at this
      exact this
    have heq : trialAux p p 3 = p.minFac := Nat.mul_self_inj.mp (by omega)
    apply hpr
    rw [heq]
    exact Nat.mod_eq_zero_of_dvd hqdvd

/-- Soundness of the sizing loop up to the first accepted candidate:
if some candidate `n + 2*k` within the fuel is accepted by `isprime` and
still below `2^32`, then the loop stops at or before it without the
`nel += 2` wrap ever engaging, at a value that is at least `n`, at most
`n + 2*k`, of `n`'s parity, and accepted by `isprime`. -/
theorem createLoopAux_sound :
    ∀ fuel n k, k < fuel → isprime (n + 2 * k) = true → n + 2 * k < U32 →
      n ≤ createLoopAux fuel n ∧ createLoopAux fuel n ≤ n + 2 * k ∧
      createLoopAux fuel n % 2 = n % 2 ∧ isprime (createLoopAux fuel n) = true := by
  intro fuel
  induction fuel with
  | zero =>
    intro n k hk _ _
    exact absurd hk (by omega)
  | succ f ih =>
    intro n k hk hkp hkU
    simp only [createLoopAux]
    split
    · next h => exact ⟨le_refl n, by omega, rfl, h⟩
    · next h =>
      have hk1 : 1 ≤ k := by
        rcases Nat.eq_zero_or_pos k with rfl | hpos
        · exact absurd (by simpa using hkp) h
        · exact hpos
      have hn2 : (n + 2) % U32 = n + 2 := Nat.mod_eq_of_lt (by omega)
      rw [hn2]
      have harith : n + 2 + 2 * (k - 1) = n + 2 * k := by omega
      obtain ⟨ha, hb, hc, hd⟩ := ih (n + 2) (k - 1) (by omega)
        (by rw [harith]; exact hkp) (by omega)
      exact ⟨by omega, by omega, by omega, hd⟩

/-- C1 (counterexample): the claim "for every requested capacity `c ≥ 0`
the resulting `htab_size` is prime and `≥ c`, in particular for `c = 0`
and `c = 1`" fails at the concrete inputs `c = 0` and `c = 1`: `isprime`
accepts 1 (its trial-division loop never runs and `1 % 3 ≠ 0`), so
`htab_create` keeps `htab_size = 1`, which is not prime.  It also fails
at the largest `unsigned long` capacity `c = 2^32 - 1`: `nel |= 1`
leaves `4294967295`, which is divisible by 3, and `nel += 2` then wraps
to 1, so `htab_size = 1` — neither prime nor `≥ c`. -/
theorem htab_create_size_one_not_prime :
    (htab_create_size 0 = 1 ∧ ¬(htab_create_size 0).Prime) ∧
    (htab_create_size 1 = 1 ∧ ¬(htab_create_size 1).Prime) ∧
    (htab_create_size 4294967295 = 1 ∧
      htab_create_size 4294967295 < 4294967295) := by
  decide

/-- C1 (amended): for every requested capacity `c` with
`2 ≤ c ≤ 2147418111`, the table size chosen by `htab_create` is a
genuine prime and is at least `c`.  The bound keeps the whole candidate
window below `65535^2`, where the 32-bit wraps in `isprime` and in
`nel += 2` provably cannot engage: Bertrand's postulate puts a genuine
prime in `(c|1, 2·(c|1)]` and `2·(c|1) ≤ 4294836222 < 65535^2`.  (For
`c = 0` and `c = 1` the size is 1, which is `≥ c` but not prime; for
capacities near `2^32` the wrap of `nel += 2` can drive the size to 1,
below `c`, as the counterexample shows at `c = 2^32 - 1`.) -/
theorem htab_create_size_prime_ge (c : Nat) (hc : 2 ≤ c) (hub : c ≤ 2147418111) :
    (htab_create_size c).Prime ∧ c ≤ htab_create_size c := by
  have hU : U32 = 4294967296 := by norm_num [U32]
  have hpar : c % 2 = 0 ∨ c % 2 = 1 := by omega
  have hodd : (c ||| 1) % 2 = 1 ∧ c ≤ c ||| 1 ∧ c ||| 1 ≤ c + 1 := by
    rcases hpar with h | h
    · rw [lor_one_of_even h]; omega
    · rw [lor_one_of_odd h]; omega
  obtain ⟨ho, hge, hle⟩ := hodd
  have h3 : 3 ≤ c ||| 1 := by omega
  have hub2 : c ||| 1 ≤ 2147418111 := by omega
  have hex : ∃ k, k < c ||| 1 ∧ isprime ((c ||| 1) + 2 * k) = true ∧
      (c ||| 1) + 2 * k ≤ 4294836225 := by
    rcases Nat.eq_or_lt_of_le h3 with h3eq | h4
    · refine ⟨1, by omega, ?_, by omega⟩
      rw [← h3eq]
      decide
    · obtain ⟨q, hqp, hq1, hq2⟩ := Nat.exists_prime_lt_and_le_two_mul (c ||| 1) (by omega)
      have hq5 : 5 ≤ q := by omega
      have hqodd : q % 2 = 1 := Nat.odd_iff.mp (hqp.odd_of_ne_two (by omega))
      have hqub : q ≤ 4294836225 := by omega
      refine ⟨(q - (c ||| 1)) / 2, by omega, ?_, by omega⟩
      have harith : (c ||| 1) + 2 * ((q - (c ||| 1)) / 2) = q := by omega
      rw [harith]
      exact isprime_of_prime hqp hq5 hqub
  obtain ⟨k, hk, hkp, hkub⟩ := hex
  obtain ⟨hge2, hub3, hmod, hpr⟩ :=
    createLoopAux_sound (c ||| 1) (c ||| 1) k hk hkp (by omega)
  have hh : htab_create_size c = createLoopAux (c ||| 1) (c ||| 1) := rfl
  rw [hh]
  have hne3 : createLoopAux (c ||| 1) (c ||| 1) ≠ 3 := by
    intro h
    rw [h] at hpr
    exact absurd hpr (by decide)
  exact ⟨prime_of_isprime (by omega) (by omega) (by omega) hpr, by omega⟩

/-- Witness for `htab_create_size_prime_ge` at the concrete capacity 6
(the chosen size is 7). -/
theorem htab_create_size_prime_ge_w :
    (2 ≤ 6 ∧ 6 ≤ 2147418111) ∧
      ((htab_create_size 6).Prime ∧ 6 ≤ htab_create_size 6) :=
  ⟨by decide, htab_create_size_prime_ge 6 (by decide) (by decide)⟩

/-! ### The primary hash of `htab_hash`

A C string is a list of its byte values (the bytes of a C string are
nonzero; the hash loop stops at the terminating NUL, so the list is
exactly what the loop consumes).  `unsigned long` on the target is
32 bits wide, hence the `% U32`. -/

/-- `if (r == 0) ++r;` -/
def remap_zero (r : Nat) : Nat := if r = 0 then 1 else r

/-- The primary hash of `htab_hash`:
`r = 5381; while ((c = *sz++)) r = ((r << 5) + r) + c; if (r == 0) ++r;`
with 32-bit `unsigned long` arithmetic. -/
def htab_hash_r (s : List Nat) : Nat :=
  remap_zero (s.foldl (fun r c => ((r <<< 5) + r + c) % U32) 5381)

/-- The accumulator exactly as the claim words it, `r = r*33 + r + byte`
(that is, `r ← 34·r + byte`), seeded 5381 with the same final 0→1
remap. -/
def claimed_hash_r (s : List Nat) : Nat :=
  remap_zero (s.foldl (fun r c => r * 33 + r + c) 5381)

/-- The accumulator of the amended claim: `r ← (r*32 + r) + byte`, that
is `r ← 33·r + byte`, modulo `2^32`, seeded 5381, 0 remapped to 1. -/
def amended_hash_r (s : List Nat) : Nat :=
  remap_zero (s.foldl (fun r c => (r * 33 + c) % U32) 5381)

/-- C2 (counterexample): on the one-byte string "a" (byte 97) the code
computes `((5381 << 5) + 5381) + 97 = 5381·33 + 97 = 177670`, while the
claim's accumulator `r = r*33 + r + byte` gives `5381·34 + 97 = 183051`;
the two disagree. -/
theorem htab_hash_r_ne_claimed :
    htab_hash_r [97] = 177670 ∧ claimed_hash_r [97] = 183051 ∧
    htab_hash_r [97] ≠ claimed_hash_r [97] := by
  decide

/-- C2 (amended): for every input string the primary hash equals the
polynomial accumulator `r ← r*33 + byte` (the code's `(r << 5) + r + c`,
i.e. `r*32 + r + byte`) over the string's bytes modulo `2^32`, seeded
5381, with a final 0 remapped to 1 — so the hash is always nonzero. -/
theorem htab_hash_r_eq_amended (s : List Nat) :
    htab_hash_r s = amended_hash_r s ∧ htab_hash_r s ≠ 0 := by
  constructor
  · unfold htab_hash_r amended_hash_r
    have hfun : (fun (r c : Nat) => ((r <<< 5) + r + c) % U32) =
        fun (r c : Nat) => (r * 33 + c) % U32 := by
      funext r c
      rw [Nat.shiftLeft_eq]
      ring_nf
    rw [hfun]
  · unfold htab_hash_r remap_zero
    split
    · omega
    · next h => exact h

/-! ### The intern table state and the find-or-insert operation

The table is the global triple `(htab_table, htab_size, htab_filled)`.
An entry's `used` field is 0 when free and holds the (table-reduced)
hash `hval` of the stored string otherwise; `str` is the stored string.
Memory allocation for the copied string is modelled as succeeding. -/

structure htab_entry where
  used : Nat
  str : List Nat
deriving DecidableEq

def empty_entry : htab_entry := ⟨0, []⟩

structure HtabState where
  htab_size : Nat
  htab_table : List htab_entry
  htab_filled : Nat
deriving DecidableEq

/-- The state `htab_create` builds: `htab_size + 1` zeroed entries. -/
def htab_create (nel : Nat) : HtabState :=
  { htab_size := htab_create_size nel
    htab_table := List.replicate (htab_create_size nel + 1) empty_entry
    htab_filled := 0 }

/-- `hval = r % htab_size; if (hval == 0) ++hval;` -/
def table_hval (st : HtabState) (s : List Nat) : Nat :=
  remap_zero (htab_hash_r s % st.htab_size)

/-- The second hash: `hval2 = 1 + hval % (htab_size - 2);` -/
def table_hval2 (st : HtabState) (s : List Nat) : Nat :=
  1 + table_hval st s % (st.htab_size - 2)

/-- One probe step of the double-hashing loop:
`if (idx <= hval2) idx = htab_size + idx - hval2; else idx -= hval2;` -/
def probeStep (size hval2 idx : Nat) : Nat :=
  if idx ≤ hval2 then size + idx - hval2 else idx - hval2

inductive ProbeOut where
  | found (idx : Nat)
  | insertAt (idx : Nat)
  | noFuel
deriving DecidableEq

/-- The `do { ... } while (htab_table[idx].used);` probe loop, with fuel
(the loop needs at most `htab_size` rounds: after `htab_size` steps the
index provably returns to `hval` and the loop breaks; `noFuel` is
unreachable for the fuel `htab_size + 2` used by `htab_hash` below). -/
def probeLoop (t : List htab_entry) (s : List Nat) (hval hval2 size : Nat) :
    Nat → Nat → ProbeOut
  | 0, _ => .noFuel
  | fuel + 1, idx =>
    if probeStep size hval2 idx = hval then .insertAt hval
    else
      if (t.getD (probeStep size hval2 idx) empty_entry).used = hval ∧
         (t.getD (probeStep size hval2 idx) empty_entry).str = s then
        .found (probeStep size hval2 idx)
      else if (t.getD (probeStep size hval2 idx) empty_entry).used ≠ 0 then
        probeLoop t s hval hval2 size fuel (probeStep size hval2 idx)
      else .insertAt (probeStep size hval2 idx)

/-- The lookup phase of `htab_hash`: try slot `hval` first, then run the
double-hashing probe loop. -/
def probeOut (st : HtabState) (s : List Nat) : ProbeOut :=
  if (st.htab_table.getD (table_hval st s) empty_entry).used ≠ 0 then
    if (st.htab_table.getD (table_hval st s) empty_entry).used = table_hval st s ∧
       (st.htab_table.getD (table_hval st s) empty_entry).str = s then
      .found (table_hval st s)
    else
      probeLoop st.htab_table s (table_hval st s) (table_hval2 st s) st.htab_size
        (st.htab_size + 2) (table_hval st s)
  else .insertAt (table_hval st s)

/-- The state after the insert phase stores the slot
`{used = hval, str = copy of s}` and increments `htab_filled`. -/
def insertState (st : HtabState) (s : List Nat) (i : Nat) : HtabState :=
  { st with htab_table := st.htab_table.set i ⟨table_hval st s, s⟩
            htab_filled := st.htab_filled + 1 }

/-- The insert phase of `htab_hash`: on a hit return the slot; otherwise
fail with 0 if `htab_filled >= htab_size`, else store the new entry. -/
def finishProbe (st : HtabState) (s : List Nat) : ProbeOut → Nat × HtabState
  | .found i => (i, st)
  | .insertAt i =>
    if st.htab_size ≤ st.htab_filled then (0, st)
    else (i, insertState st s i)
  | .noFuel => (0, st)

/-- `htab_hash`: find-or-insert.  Returns the slot index (0 on failure)
and the updated table state. -/
def htab_hash (st : HtabState) (s : List Nat) : Nat × HtabState :=
  finishProbe st s (probeOut st s)

/-- Folding find-or-insert over a list of strings; also returns the list
of returned slot indices. -/
def insertAll (st : HtabState) : List (List Nat) → HtabState × List Nat
  | [] => (st, [])
  | s :: rest =>
    ((insertAll (htab_hash st s).2 rest).1,
      (htab_hash st s).1 :: (insertAll (htab_hash st s).2 rest).2)

/-! ### List helper lemmas for `getD`/`set` -/

theorem getD_set_self {α : Type} (l : List α) (i : Nat) (a d : α) (h : i < l.length) :
    (l.set i a).getD i d = a := by
  simp [List.getD_eq_getElem?_getD, List.getElem?_set_self, h]

theorem getD_set_ne {α : Type} (l : List α) (i j : Nat) (a d : α) (h : i ≠ j) :
    (l.set i a).getD j d = l.getD j d := by
  simp [List.getD_eq_getElem?_getD, List.getElem?_set_ne, h]

/-! ### The probe sequence is a full cycle modulo the prime table size

`probeStep` acts on the index range `[1, htab_size]` as subtraction of
`hval2` in `ZMod htab_size` (the representative of the residue 0 being
`htab_size` itself, which is why slot 0 is never probed). -/

theorem probeStep_range {size hval2 idx : Nat} (h2l : 1 ≤ hval2) (h2u : hval2 + 2 ≤ size)
    (hil : 1 ≤ idx) (hiu : idx ≤ size) :
    1 ≤ probeStep size hval2 idx ∧ probeStep size hval2 idx ≤ size := by
  unfold probeStep
  split
  · omega
  · omega

theorem probeStep_cast {size hval2 idx : Nat} (h2u : hval2 ≤ size) :
    ((probeStep size hval2 idx : Nat) : ZMod size) =
      (idx : ZMod size) - (hval2 : ZMod size) := by
  unfold probeStep
  split
  · rw [Nat.cast_sub (show hval2 ≤ size + idx by omega), Nat.cast_add, ZMod.natCast_self,
      zero_add]
  · next h => rw [Nat.cast_sub (show hval2 ≤ idx by omega)]

theorem probeIter_range {size hval2 hval : Nat} (h2l : 1 ≤ hval2) (h2u : hval2 + 2 ≤ size)
    (hl : 1 ≤ hval) (hu : hval ≤ size) :
    ∀ k, 1 ≤ (probeStep size hval2)^[k] hval ∧ (probeStep size hval2)^[k] hval ≤ size := by
  intro k
  induction k with
  | zero => simpa using ⟨hl, hu⟩
  | succ n ih =>
    rw [Function.iterate_succ_apply']
    exact probeStep_range h2l h2u ih.1 ih.2

theorem probeIter_cast {size hval2 hval : Nat} (h2u : hval2 + 2 ≤ size) :
    ∀ k, (((probeStep size hval2)^[k] hval : Nat) : ZMod size) =
      (hval : ZMod size) - (k : ZMod size) * (hval2 : ZMod size) := by
  intro k
  induction k with
  | zero => simp
  | succ n ih =>
    rw [Function.iterate_succ_apply', probeStep_cast (by omega), ih]
    push_cast
    ring

/-- Natural casts into `ZMod size` are injective on the representative
range `[1, size]` (with `size` standing for the residue 0). -/
theorem cast_inj_range {size a b : Nat} (h1 : 1 ≤ size) (ha1 : 1 ≤ a) (ha2 : a ≤ size)
    (hb1 : 1 ≤ b) (hb2 : b ≤ size) (h : (a : ZMod size) = (b : ZMod size)) : a = b := by
  haveI : NeZero size := ⟨by omega⟩
  rcases Nat.lt_or_ge a size with halt | hage
  · rcases Nat.lt_or_ge b size with hblt | hbge
    · have hv := congrArg ZMod.val h
      rwa [ZMod.val_cast_of_lt halt, ZMod.val_cast_of_lt hblt] at hv
    · have hb : b = size := by omega
      rw [hb, ZMod.natCast_self] at h
      have hv := congrArg ZMod.val h
      rw [ZMod.val_cast_of_lt halt, ZMod.val_zero] at hv
      omega
  · have ha : a = size := by omega
    rcases Nat.lt_or_ge b size with hblt | hbge
    · rw [ha, ZMod.natCast_self] at h
      have hv := congrArg ZMod.val h.symm
      rw [ZMod.val_cast_of_lt hblt, ZMod.val_zero] at hv
      omega
    · omega

/-- Before `size` steps the probe sequence cannot return to its start:
the step `hval2` is invertible modulo the prime `size`. -/
theorem probeIter_ne_hval {size hval2 hval : Nat} (hp : size.Prime) (h2l : 1 ≤ hval2)
    (h2u : hval2 + 2 ≤ size) {k : Nat} (hk1 : 1 ≤ k) (hk2 : k < size) :
    (probeStep size hval2)^[k] hval ≠ hval := by
  intro heq
  haveI : NeZero size := ⟨by omega⟩
  have hc := @probeIter_cast size hval2 hval h2u k
  rw [heq] at hc
  have hz : (k : ZMod size) * (hval2 : ZMod size) = 0 := sub_eq_self.mp hc.symm
  have hzc : ((k * hval2 : Nat) : ZMod size) = 0 := by
    rw [Nat.cast_mul]
    exact hz
  have hdvd := (ZMod.natCast_zmod_eq_zero_iff_dvd (k * hval2) size).mp hzc
  rcases (Nat.Prime.dvd_mul hp).mp hdvd with hk | hh
  · have := Nat.le_of_dvd (by omega) hk
    omega
  · have := Nat.le_of_dvd (by omega) hh
    omega

/-- After exactly `size` steps the probe sequence is back at `hval`. -/
theorem probeIter_size {size hval2 hval : Nat} (h2l : 1 ≤ hval2) (h2u : hval2 + 2 ≤ size)
    (hl : 1 ≤ hval) (hu : hval ≤ size) :
    (probeStep size hval2)^[size] hval = hval := by
  have hr := probeIter_range h2l h2u hl hu size
  apply cast_inj_range (show 1 ≤ size by omega) hr.1 hr.2 hl hu
  rw [probeIter_cast h2u size, ZMod.natCast_self]
  ring

/-- The first `size` probe positions cover every slot in `[1, size]`. -/
theorem probeIter_covers {size hval2 hval : Nat} (hp : size.Prime) (h2l : 1 ≤ hval2)
    (h2u : hval2 + 2 ≤ size) (hl : 1 ≤ hval) (hu : hval ≤ size) :
    ∀ j, 1 ≤ j → j ≤ size → ∃ k, k < size ∧ (probeStep size hval2)^[k] hval = j := by
  intro j hj1 hj2
  haveI : NeZero size := ⟨by omega⟩
  haveI : Fact size.Prime := ⟨hp⟩
  have h2z : (hval2 : ZMod size) ≠ 0 := by
    intro h0
    have hdvd := (ZMod.natCast_zmod_eq_zero_iff_dvd hval2 size).mp h0
    have := Nat.le_of_dvd (by omega) hdvd
    omega
  have hginj : Function.Injective
      (fun k : Fin size =>
        (hval : ZMod size) - ((k : Nat) : ZMod size) * (hval2 : ZMod size)) := by
    intro a b hab
    simp only at hab
    have hmul : ((a : Nat) : ZMod size) * (hval2 : ZMod size) =
        ((b : Nat) : ZMod size) * (hval2 : ZMod size) := sub_right_inj.mp hab
    have hcast := mul_right_cancel₀ h2z hmul
    apply Fin.ext
    have va := ZMod.val_cast_of_lt a.isLt
    have vb := ZMod.val_cast_of_lt b.isLt
    rw [← va, ← vb, hcast]
  have hgsurj : Function.Surjective
      (fun k : Fin size =>
        (hval : ZMod size) - ((k : Nat) : ZMod size) * (hval2 : ZMod size)) := by
    have hcard : Fintype.card (Fin size) = Fintype.card (ZMod size) := by
      simp [ZMod.card]
    exact ((Fintype.bijective_iff_injective_and_card _).mpr ⟨hginj, hcard⟩).2
  obtain ⟨k, hk⟩ := hgsurj (j : ZMod size)
  refine ⟨(k : Nat), k.isLt, ?_⟩
  have hr := probeIter_range h2l h2u hl hu (k : Nat)
  apply cast_inj_range (show 1 ≤ size by omega) hr.1 hr.2 hj1 hj2
  rw [probeIter_cast h2u (k : Nat)]
  exact hk

/-! ### Structural lemmas about the probe loop -/

/-- If the loop ran out of fuel it never saw the break condition: no
iterate within `fuel` steps hits `hval`. -/
theorem probeLoop_noFuel (t : List htab_entry) (s : List Nat) (hval hval2 size : Nat) :
    ∀ fuel idx, probeLoop t s hval hval2 size fuel idx = .noFuel →
      ∀ k, 1 ≤ k → k ≤ fuel → (probeStep size hval2)^[k] idx ≠ hval := by
  intro fuel
  induction fuel with
  | zero =>
    intro idx h k hk1 hk2
    omega
  | succ f ih =>
    intro idx h k hk1 hk2
    simp only [probeLoop] at h
    by_cases hc1 : probeStep size hval2 idx = hval
    · rw [if_pos hc1] at h
      simp at h
    · rw [if_neg hc1] at h
      by_cases hc2 : (t.getD (probeStep size hval2 idx) empty_entry).used = hval ∧
          (t.getD (probeStep size hval2 idx) empty_entry).str = s
      · rw [if_pos hc2] at h
        simp at h
      · rw [if_neg hc2] at h
        by_cases hc3 : (t.getD (probeStep size hval2 idx) empty_entry).used ≠ 0
        · rw [if_pos hc3] at h
          rcases Nat.eq_or_lt_of_le hk1 with rfl | hk1'
          · simpa using hc1
          · obtain ⟨m, rfl⟩ : ∃ m, k = m + 1 := ⟨k - 1, by omega⟩
            rw [Function.iterate_succ_apply]
            exact ih (probeStep size hval2 idx) h m (by omega) (by omega)
        · rw [if_neg hc3] at h
          simp at h

/-- If the loop exits through the `idx == hval` break, there is a step
count `n ≤ fuel` at which the sequence first returns to `hval`, and all
strictly earlier probed slots were occupied (and distinct from `hval`). -/
theorem probeLoop_cycled (t : List htab_entry) (s : List Nat) (hval hval2 size : Nat) :
    ∀ fuel idx, probeLoop t s hval hval2 size fuel idx = .insertAt hval →
      ∃ n, 1 ≤ n ∧ n ≤ fuel ∧ (probeStep size hval2)^[n] idx = hval ∧
        ∀ m, 1 ≤ m → m < n →
          (probeStep size hval2)^[m] idx ≠ hval ∧
          (t.getD ((probeStep size hval2)^[m] idx) empty_entry).used ≠ 0 := by
  intro fuel
  induction fuel with
  | zero =>
    intro idx h
    simp [probeLoop] at h
  | succ f ih =>
    intro idx h
    simp only [probeLoop] at h
    by_cases hc1 : probeStep size hval2 idx = hval
    · refine ⟨1, by omega, by omega, by simpa using hc1, ?_⟩
      intro m hm1 hm2
      omega
    · rw [if_neg hc1] at h
      by_cases hc2 : (t.getD (probeStep size hval2 idx) empty_entry).used = hval ∧
          (t.getD (probeStep size hval2 idx) empty_entry).str = s
      · rw [if_pos hc2] at h
        simp at h
      · rw [if_neg hc2] at h
        by_cases hc3 : (t.getD (probeStep size hval2 idx) empty_entry).used ≠ 0
        · rw [if_pos hc3] at h
          obtain ⟨n, hn1, hn2, hn3, hn4⟩ := ih (probeStep size hval2 idx) h
          refine ⟨n + 1, by omega, by omega, ?_, ?_⟩
          · rw [Function.iterate_succ_apply]
            exact hn3
          · intro m hm1 hm2
            rcases Nat.eq_or_lt_of_le hm1 with rfl | hm1'
            · constructor
              · simpa using hc1
              · simpa using hc3
            · obtain ⟨m', rfl⟩ : ∃ m', m = m' + 1 := ⟨m - 1, by omega⟩
              rw [Function.iterate_succ_apply]
              exact hn4 m' (by omega) (by omega)
        · rw [if_neg hc3] at h
          simp only [ProbeOut.insertAt.injEq] at h
          exact absurd h hc1

/-- Indices produced by the loop stay within `[1, size]`. -/
theorem probeLoop_out_range {size hval2 hval : Nat} (t : List htab_entry) (s : List Nat)
    (h2l : 1 ≤ hval2) (h2u : hval2 + 2 ≤ size) (hl : 1 ≤ hval) (hu : hval ≤ size) :
    ∀ fuel idx, 1 ≤ idx → idx ≤ size →
      ∀ i, (probeLoop t s hval hval2 size fuel idx = .found i ∨
            probeLoop t s hval hval2 size fuel idx = .insertAt i) →
        1 ≤ i ∧ i ≤ size := by
  intro fuel
  induction fuel with
  | zero =>
    intro idx h1 h2 i hi
    rcases hi with h | h <;> simp [probeLoop] at h
  | succ f ih =>
    intro idx h1 h2 i hi
    have hstep := probeStep_range h2l h2u h1 h2
    rcases hi with h | h <;> simp only [probeLoop] at h <;>
      by_cases hc1 : probeStep size hval2 idx = hval
    · rw [if_pos hc1] at h
      simp at h
    · rw [if_neg hc1] at h
      by_cases hc2 : (t.getD (probeStep size hval2 idx) empty_entry).used = hval ∧
          (t.getD (probeStep size hval2 idx) empty_entry).str = s
      · rw [if_pos hc2] at h
        simp only [ProbeOut.found.injEq] at h
        omega
      · rw [if_neg hc2] at h
        by_cases hc3 : (t.getD (probeStep size hval2 idx) empty_entry).used ≠ 0
        · rw [if_pos hc3] at h
          exact ih (probeStep size hval2 idx) hstep.1 hstep.2 i (Or.inl h)
        · rw [if_neg hc3] at h
          simp at h
    · rw [if_pos hc1] at h
      simp only [ProbeOut.insertAt.injEq] at h
      omega
    · rw [if_neg hc1] at h
      by_cases hc2 : (t.getD (probeStep size hval2 idx) empty_entry).used = hval ∧
          (t.getD (probeStep size hval2 idx) empty_entry).str = s
      · rw [if_pos hc2] at h
        simp at h
      · rw [if_neg hc2] at h
        by_cases hc3 : (t.getD (probeStep size hval2 idx) empty_entry).used ≠ 0
        · rw [if_pos hc3] at h
          exact ih (probeStep size hval2 idx) hstep.1 hstep.2 i (Or.inr h)
        · rw [if_neg hc3] at h
          simp only [ProbeOut.insertAt.injEq] at h
          omega

/-- An `insertAt i` outcome whose slot is occupied can only be the
`idx == hval` break. -/
theorem probeLoop_insert_used (t : List htab_entry) (s : List Nat) (hval hval2 size : Nat) :
    ∀ fuel idx i, probeLoop t s hval hval2 size fuel idx = .insertAt i →
      (t.getD i empty_entry).used ≠ 0 → i = hval := by
  intro fuel
  induction fuel with
  | zero =>
    intro idx i h hi
    simp [probeLoop] at h
  | succ f ih =>
    intro idx i h hi
    simp only [probeLoop] at h
    by_cases hc1 : probeStep size hval2 idx = hval
    · rw [if_pos hc1] at h
      simp only [ProbeOut.insertAt.injEq] at h
      omega
    · rw [if_neg hc1] at h
      by_cases hc2 : (t.getD (probeStep size hval2 idx) empty_entry).used = hval ∧
          (t.getD (probeStep size hval2 idx) empty_entry).str = s
      · rw [if_pos hc2] at h
        simp at h
      · rw [if_neg hc2] at h
        by_cases hc3 : (t.getD (probeStep size hval2 idx) empty_entry).used ≠ 0
        · rw [if_pos hc3] at h
          exact ih (probeStep size hval2 idx) i h hi
        · rw [if_neg hc3] at h
          simp only [ProbeOut.insertAt.injEq] at h
          subst h
          exact absurd hi hc3

/-- An `insertAt i` outcome with `i ≠ hval` found slot `i` empty. -/
theorem probeLoop_insert_notused (t : List htab_entry) (s : List Nat) (hval hval2 size : Nat) :
    ∀ fuel idx i, probeLoop t s hval hval2 size fuel idx = .insertAt i → i ≠ hval →
      (t.getD i empty_entry).used = 0 := by
  intro fuel
  induction fuel with
  | zero =>
    intro idx i h hi
    simp [probeLoop] at h
  | succ f ih =>
    intro idx i h hi
    simp only [probeLoop] at h
    by_cases hc1 : probeStep size hval2 idx = hval
    · rw [if_pos hc1] at h
      simp only [ProbeOut.insertAt.injEq] at h
      omega
    · rw [if_neg hc1] at h
      by_cases hc2 : (t.getD (probeStep size hval2 idx) empty_entry).used = hval ∧
          (t.getD (probeStep size hval2 idx) empty_entry).str = s
      · rw [if_pos hc2] at h
        simp at h
      · rw [if_neg hc2] at h
        by_cases hc3 : (t.getD (probeStep size hval2 idx) empty_entry).used ≠ 0
        · rw [if_pos hc3] at h
          exact ih (probeStep size hval2 idx) i h hi
        · rw [if_neg hc3] at h
          simp only [ProbeOut.insertAt.injEq] at h
          subst h
          omega

/-- A `found i` outcome means slot `i` holds marker `hval` and string `s`. -/
theorem probeLoop_found_match (t : List htab_entry) (s : List Nat) (hval hval2 size : Nat) :
    ∀ fuel idx i, probeLoop t s hval hval2 size fuel idx = .found i →
      (t.getD i empty_entry).used = hval ∧ (t.getD i empty_entry).str = s := by
  intro fuel
  induction fuel with
  | zero =>
    intro idx i h
    simp [probeLoop] at h
  | succ f ih =>
    intro idx i h
    simp only [probeLoop] at h
    by_cases hc1 : probeStep size hval2 idx = hval
    · rw [if_pos hc1] at h
      simp at h
    · rw [if_neg hc1] at h
      by_cases hc2 : (t.getD (probeStep size hval2 idx) empty_entry).used = hval ∧
          (t.getD (probeStep size hval2 idx) empty_entry).str = s
      · rw [if_pos hc2] at h
        simp only [ProbeOut.found.injEq] at h
        rw [← h]
        exact hc2
      · rw [if_neg hc2] at h
        by_cases hc3 : (t.getD (probeStep size hval2 idx) empty_entry).used ≠ 0
        · rw [if_pos hc3] at h
          exact ih (probeStep size hval2 idx) i h
        · rw [if_neg hc3] at h
          simp at h

/-- A successful find survives any table change that leaves occupied
slots intact (occupied slots are never rewritten, so later states agree
with earlier ones on them). -/
theorem probeLoop_found_ext (t t2 : List htab_entry) (s : List Nat) (hval hval2 size : Nat)
    (hhval : hval ≠ 0)
    (hext : ∀ j, (t.getD j empty_entry).used ≠ 0 →
      t2.getD j empty_entry = t.getD j empty_entry) :
    ∀ fuel idx i, probeLoop t s hval hval2 size fuel idx = .found i →
      probeLoop t2 s hval hval2 size fuel idx = .found i := by
  intro fuel
  induction fuel with
  | zero =>
    intro idx i h
    simp [probeLoop] at h
  | succ f ih =>
    intro idx i h
    simp only [probeLoop] at h ⊢
    by_cases hc1 : probeStep size hval2 idx = hval
    · rw [if_pos hc1] at h
      simp at h
    · rw [if_neg hc1] at h
      rw [if_neg hc1]
      by_cases hc2 : (t.getD (probeStep size hval2 idx) empty_entry).used = hval ∧
          (t.getD (probeStep size hval2 idx) empty_entry).str = s
      · rw [if_pos hc2] at h
        simp only [ProbeOut.found.injEq] at h
        have huse : (t.getD (probeStep size hval2 idx) empty_entry).used ≠ 0 := by
          rw [hc2.1]
          exact hhval
        have he2 := hext _ huse
        rw [if_pos (by rw [he2]; exact hc2)]
        rw [h]
      · rw [if_neg hc2] at h
        by_cases hc3 : (t.getD (probeStep size hval2 idx) empty_entry).used ≠ 0
        · rw [if_pos hc3] at h
          have he2 := hext _ hc3
          rw [if_neg (by rw [he2]; exact hc2), if_pos (by rw [he2]; exact hc3)]
          exact ih _ i h
        · rw [if_neg hc3] at h
          simp at h

/-- After the loop selects the empty slot `i` for insertion, storing
`{used = hval, str = s}` there makes the same probe find `i`. -/
theorem probeLoop_insert_self (t : List htab_entry) (s : List Nat) (hval hval2 size i : Nat)
    (hne : i ≠ hval) (huse : (t.getD i empty_entry).used = 0) (hlen : i < t.length)
    (hhval : hval ≠ 0) :
    ∀ fuel idx, probeLoop t s hval hval2 size fuel idx = .insertAt i →
      probeLoop (t.set i ⟨hval, s⟩) s hval hval2 size fuel idx = .found i := by
  intro fuel
  induction fuel with
  | zero =>
    intro idx h
    simp [probeLoop] at h
  | succ f ih =>
    intro idx h
    simp only [probeLoop] at h ⊢
    by_cases hc1 : probeStep size hval2 idx = hval
    · rw [if_pos hc1] at h
      simp only [ProbeOut.insertAt.injEq] at h
      exact absurd h.symm hne
    · rw [if_neg hc1] at h
      rw [if_neg hc1]
      by_cases hc2 : (t.getD (probeStep size hval2 idx) empty_entry).used = hval ∧
          (t.getD (probeStep size hval2 idx) empty_entry).str = s
      · rw [if_pos hc2] at h
        simp at h
      · rw [if_neg hc2] at h
        by_cases hc3 : (t.getD (probeStep size hval2 idx) empty_entry).used ≠ 0
        · rw [if_pos hc3] at h
          have hstepne : i ≠ probeStep size hval2 idx := by
            intro heq
            rw [← heq] at hc3
            exact hc3 huse
          have he2 : (t.set i ⟨hval, s⟩).getD (probeStep size hval2 idx) empty_entry =
              t.getD (probeStep size hval2 idx) empty_entry :=
            getD_set_ne t i _ _ _ hstepne
          rw [if_neg (by rw [he2]; exact hc2), if_pos (by rw [he2]; exact hc3)]
          exact ih _ h
        · rw [if_neg hc3] at h
          simp only [ProbeOut.insertAt.injEq] at h
          have he2 : (t.set i ⟨hval, s⟩).getD (probeStep size hval2 idx) empty_entry =
              ⟨hval, s⟩ := by
            rw [h]
            exact getD_set_self t i _ _ hlen
          rw [if_pos (show ((t.set i ⟨hval, s⟩).getD (probeStep size hval2 idx)
              empty_entry).used = hval ∧
              ((t.set i ⟨hval, s⟩).getD (probeStep size hval2 idx) empty_entry).str = s by
            rw [he2]
            exact ⟨rfl, rfl⟩)]
          rw [h]

/-! ### Well-formed table states

`WF` captures the states reachable through `htab_create` followed by
find-or-insert calls: the size is an odd-or-3 prime (every size
`htab_create` produces for a capacity ≥ 2 is), the backing array has
`htab_size + 1` entries, slot 0 is permanently free, and `htab_filled`
counts the occupied slots among `1..htab_size`. -/

def usedCount (st : HtabState) : Nat :=
  ((Finset.range st.htab_size).filter
    (fun k => (st.htab_table.getD (k + 1) empty_entry).used ≠ 0)).card

def WF (st : HtabState) : Prop :=
  st.htab_size.Prime ∧ 3 ≤ st.htab_size ∧
  st.htab_table.length = st.htab_size + 1 ∧
  (st.htab_table.getD 0 empty_entry).used = 0 ∧
  st.htab_filled = usedCount st

theorem table_hval_range (st : HtabState) (s : List Nat) (h3 : 3 ≤ st.htab_size) :
    1 ≤ table_hval st s ∧ table_hval st s ≤ st.htab_size - 1 := by
  unfold table_hval remap_zero
  have hmod := Nat.mod_lt (htab_hash_r s) (show 0 < st.htab_size by omega)
  split
  · omega
  · next h => omega

theorem table_hval2_range (st : HtabState) (s : List Nat) (h3 : 3 ≤ st.htab_size) :
    1 ≤ table_hval2 st s ∧ table_hval2 st s + 2 ≤ st.htab_size := by
  unfold table_hval2
  have hmod := Nat.mod_lt (table_hval st s) (show 0 < st.htab_size - 2 by omega)
  omega

theorem usedCount_le (st : HtabState) : usedCount st ≤ st.htab_size := by
  unfold usedCount
  calc ((Finset.range st.htab_size).filter _).card
      ≤ (Finset.range st.htab_size).card := Finset.card_filter_le _ _
    _ = st.htab_size := Finset.card_range _

theorem usedCount_lt_of_free (st : HtabState) (j : Nat) (hj1 : 1 ≤ j)
    (hj2 : j ≤ st.htab_size) (hfree : (st.htab_table.getD j empty_entry).used = 0) :
    usedCount st < st.htab_size := by
  unfold usedCount
  have hmem : j - 1 ∈ Finset.range st.htab_size := Finset.mem_range.mpr (by omega)
  have hnot : ¬((st.htab_table.getD (j - 1 + 1) empty_entry).used ≠ 0) := by
    have hplus : j - 1 + 1 = j := by omega
    rw [hplus, hfree]
    omega
  have hlt : ((Finset.range st.htab_size).filter
      (fun k => (st.htab_table.getD (k + 1) empty_entry).used ≠ 0)).card <
      (Finset.range st.htab_size).card := by
    apply Finset.card_lt_card
    constructor
    · exact Finset.filter_subset _ _
    · intro hsub
      exact hnot (Finset.mem_filter.mp (hsub hmem)).2
  rwa [Finset.card_range] at hlt

theorem usedCount_full (st : HtabState)
    (hall : ∀ j, 1 ≤ j → j ≤ st.htab_size →
      (st.htab_table.getD j empty_entry).used ≠ 0) :
    usedCount st = st.htab_size := by
  unfold usedCount
  rw [Finset.filter_true_of_mem, Finset.card_range]
  intro k hk
  have hkr := Finset.mem_range.mp hk
  exact hall (k + 1) (by omega) (by omega)

theorem usedCount_set (size : Nat) (t : List htab_entry) (f f2 : Nat) (i : Nat)
    (e : htab_entry) (hi1 : 1 ≤ i) (hi2 : i ≤ size)
    (hfree : (t.getD i empty_entry).used = 0) (heuse : e.used ≠ 0) (hlen : i < t.length) :
    usedCount ⟨size, t.set i e, f2⟩ = usedCount ⟨size, t, f⟩ + 1 := by
  show ((Finset.range size).filter
      (fun k => ((t.set i e).getD (k + 1) empty_entry).used ≠ 0)).card =
    ((Finset.range size).filter (fun k => (t.getD (k + 1) empty_entry).used ≠ 0)).card + 1
  have hset : (Finset.range size).filter
      (fun k => ((t.set i e).getD (k + 1) empty_entry).used ≠ 0) =
      insert (i - 1)
        ((Finset.range size).filter (fun k => (t.getD (k + 1) empty_entry).used ≠ 0)) := by
    ext k
    simp only [Finset.mem_filter, Finset.mem_insert, Finset.mem_range]
    by_cases hk : k = i - 1
    · subst hk
      have hplus : i - 1 + 1 = i := by omega
      rw [hplus]
      constructor
      · intro _
        exact Or.inl rfl
      · intro _
        refine ⟨by omega, ?_⟩
        rw [getD_set_self t i e empty_entry hlen]
        exact heuse
    · have hne : i ≠ k + 1 := by omega
      rw [getD_set_ne t i (k + 1) e empty_entry hne]
      constructor
      · rintro ⟨hk1, hk2⟩
        exact Or.inr ⟨hk1, hk2⟩
      · rintro (h | ⟨hk1, hk2⟩)
        · exact absurd h hk
        · exact ⟨hk1, hk2⟩
  rw [hset, Finset.card_insert_of_not_mem]
  intro hmem
  have hpred := (Finset.mem_filter.mp hmem).2
  have hplus : i - 1 + 1 = i := by omega
  rw [hplus, hfree] at hpred
  exact hpred rfl

/-- Master case analysis of one find-or-insert call on a well-formed
state: either the table is full and the call fails leaving the state
untouched, or the string is found in a matching slot and the state is
untouched, or a previously empty slot is filled — and in that case an
immediate second call finds the freshly filled slot. -/
theorem htab_hash_spec (st : HtabState) (u : List Nat) (hwf : WF st) :
    (htab_hash st u = (0, st) ∧ st.htab_size ≤ st.htab_filled) ∨
    (∃ i, htab_hash st u = (i, st) ∧ 1 ≤ i ∧ i ≤ st.htab_size ∧
      (st.htab_table.getD i empty_entry).used = table_hval st u ∧
      (st.htab_table.getD i empty_entry).str = u) ∨
    (∃ i, 1 ≤ i ∧ i ≤ st.htab_size ∧
      (st.htab_table.getD i empty_entry).used = 0 ∧
      st.htab_filled < st.htab_size ∧
      htab_hash st u = (i, insertState st u i) ∧
      htab_hash (insertState st u i) u = (i, insertState st u i)) := by
  obtain ⟨hp, h3, hlen, h0, hfill⟩ := hwf
  have hvr := table_hval_range st u h3
  have h2r := table_hval2_range st u h3
  have hvne0 : table_hval st u ≠ 0 := by omega
  have hvlen : table_hval st u < st.htab_table.length := by omega
  by_cases hcA : (st.htab_table.getD (table_hval st u) empty_entry).used ≠ 0
  · by_cases hcB : (st.htab_table.getD (table_hval st u) empty_entry).used = table_hval st u ∧
        (st.htab_table.getD (table_hval st u) empty_entry).str = u
    · -- direct hit at slot hval
      refine Or.inr (Or.inl ⟨table_hval st u, ?_, by omega, by omega, hcB.1, hcB.2⟩)
      have hout : probeOut st u = .found (table_hval st u) := by
        unfold probeOut
        rw [if_pos hcA, if_pos hcB]
      unfold htab_hash
      rw [hout]
      rfl
    · -- probe loop
      have hout : probeOut st u = probeLoop st.htab_table u (table_hval st u)
          (table_hval2 st u) st.htab_size (st.htab_size + 2) (table_hval st u) := by
        unfold probeOut
        rw [if_pos hcA, if_neg hcB]
      cases hres : probeLoop st.htab_table u (table_hval st u) (table_hval2 st u)
          st.htab_size (st.htab_size + 2) (table_hval st u) with
      | noFuel =>
        exfalso
        have hnf := probeLoop_noFuel st.htab_table u (table_hval st u) (table_hval2 st u)
          st.htab_size (st.htab_size + 2) (table_hval st u) hres st.htab_size
          (by omega) (by omega)
        exact hnf (probeIter_size h2r.1 h2r.2 hvr.1 (by omega))
      | found j =>
        have hmatch := probeLoop_found_match st.htab_table u (table_hval st u)
          (table_hval2 st u) st.htab_size (st.htab_size + 2) (table_hval st u) j hres
        have hrange := probeLoop_out_range st.htab_table u h2r.1 h2r.2 hvr.1 (by omega)
          (st.htab_size + 2) (table_hval st u) hvr.1 (by omega) j (Or.inl hres)
        refine Or.inr (Or.inl ⟨j, ?_, hrange.1, hrange.2, hmatch.1, hmatch.2⟩)
        unfold htab_hash
        rw [hout, hres]
        rfl
      | insertAt j =>
        by_cases hj0 : (st.htab_table.getD j empty_entry).used = 0
        · -- genuine insert into the empty slot j
          have hrange := probeLoop_out_range st.htab_table u h2r.1 h2r.2 hvr.1 (by omega)
            (st.htab_size + 2) (table_hval st u) hvr.1 (by omega) j (Or.inr hres)
          have hjne : j ≠ table_hval st u := by
            intro heq
            rw [heq] at hj0
            exact hcA hj0
          have hjlen : j < st.htab_table.length := by omega
          have hnotfull : ¬(st.htab_size ≤ st.htab_filled) := by
            have := usedCount_lt_of_free st j hrange.1 hrange.2 hj0
            omega
          refine Or.inr (Or.inr ⟨j, hrange.1, hrange.2, hj0, by
            have := usedCount_lt_of_free st j hrange.1 hrange.2 hj0
            omega, ?_, ?_⟩)
          · unfold htab_hash
            rw [hout, hres]
            simp only [finishProbe]
            rw [if_neg hnotfull]
          · -- the second call finds slot j
            have hfound := probeLoop_insert_self st.htab_table u (table_hval st u)
              (table_hval2 st u) st.htab_size j hjne hj0 hjlen hvne0
              (st.htab_size + 2) (table_hval st u) hres
            have htb : (insertState st u j).htab_table =
                st.htab_table.set j ⟨table_hval st u, u⟩ := rfl
            have hgd : (insertState st u j).htab_table.getD (table_hval st u) empty_entry =
                st.htab_table.getD (table_hval st u) empty_entry := by
              rw [htb]
              exact getD_set_ne _ _ _ _ _ hjne
            have hout2 : probeOut (insertState st u j) u = .found j := by
              unfold probeOut
              rw [show table_hval (insertState st u j) u = table_hval st u from rfl]
              rw [hgd, if_pos hcA, if_neg hcB]
              rw [show (insertState st u j).htab_size = st.htab_size from rfl]
              rw [show table_hval2 (insertState st u j) u = table_hval2 st u from rfl]
              rw [htb]
              exact hfound
            unfold htab_hash
            rw [hout2]
            rfl
        · -- break back at hval: the whole cycle was occupied, table full
          have hjv := probeLoop_insert_used st.htab_table u (table_hval st u)
            (table_hval2 st u) st.htab_size (st.htab_size + 2) (table_hval st u) j hres hj0
          subst hjv
          obtain ⟨n, hn1, hn2, hn3, hn4⟩ := probeLoop_cycled st.htab_table u
            (table_hval st u) (table_hval2 st u) st.htab_size (st.htab_size + 2)
            (table_hval st u) hres
          have hnsize : n = st.htab_size := by
            rcases Nat.lt_or_ge n st.htab_size with hlt | hge
            · exact absurd hn3 (probeIter_ne_hval hp h2r.1 h2r.2 hn1 hlt)
            · rcases Nat.eq_or_lt_of_le hge with heq | hgt
              · omega
              · exfalso
                have := hn4 st.htab_size (by omega) (by omega)
                exact this.1 (probeIter_size h2r.1 h2r.2 hvr.1 (by omega))
          have hall : ∀ j', 1 ≤ j' → j' ≤ st.htab_size →
              (st.htab_table.getD j' empty_entry).used ≠ 0 := by
            intro j' hj1 hj2
            obtain ⟨k, hk, hkj⟩ := probeIter_covers hp h2r.1 h2r.2 hvr.1 (by omega) j' hj1 hj2
            rcases Nat.eq_zero_or_pos k with rfl | hkpos
            · simp only [Function.iterate_zero_apply] at hkj
              rw [← hkj]
              exact hcA
            · have := hn4 k hkpos (by omega)
              rw [← hkj]
              exact this.2
          have hfull : st.htab_size ≤ st.htab_filled := by
            rw [hfill, usedCount_full st hall]
          refine Or.inl ⟨?_, hfull⟩
          unfold htab_hash
          rw [hout, hres]
          simp only [finishProbe]
          rw [if_pos hfull]
  · -- slot hval itself is free: direct insert there
    have hj0 : (st.htab_table.getD (table_hval st u) empty_entry).used = 0 := by omega
    have hout : probeOut st u = .insertAt (table_hval st u) := by
      unfold probeOut
      rw [if_neg hcA]
    have hnotfull : ¬(st.htab_size ≤ st.htab_filled) := by
      have := usedCount_lt_of_free st (table_hval st u) hvr.1 (by omega) hj0
      omega
    refine Or.inr (Or.inr ⟨table_hval st u, hvr.1, by omega, hj0, by
      have := usedCount_lt_of_free st (table_hval st u) hvr.1 (by omega) hj0
      omega, ?_, ?_⟩)
    · unfold htab_hash
      rw [hout]
      simp only [finishProbe]
      rw [if_neg hnotfull]
    · have htb : (insertState st u (table_hval st u)).htab_table =
          st.htab_table.set (table_hval st u) ⟨table_hval st u, u⟩ := rfl
      have hgd : (insertState st u (table_hval st u)).htab_table.getD
          (table_hval st u) empty_entry = ⟨table_hval st u, u⟩ := by
        rw [htb]
        exact getD_set_self _ _ _ _ hvlen
      have hout2 : probeOut (insertState st u (table_hval st u)) u =
          .found (table_hval st u) := by
        unfold probeOut
        rw [show table_hval (insertState st u (table_hval st u)) u = table_hval st u from rfl]
        rw [hgd]
        rw [if_pos (show (htab_entry.mk (table_hval st u) u).used ≠ 0 from hvne0)]
        rw [if_pos (show (htab_entry.mk (table_hval st u) u).used = table_hval st u ∧
          (htab_entry.mk (table_hval st u) u).str = u from ⟨rfl, rfl⟩)]
      unfold htab_hash
      rw [hout2]
      rfl

theorem WF_insertState (st : HtabState) (u : List Nat) (i : Nat) (hwf : WF st)
    (hi1 : 1 ≤ i) (hi2 : i ≤ st.htab_size)
    (hfree : (st.htab_table.getD i empty_entry).used = 0) :
    WF (insertState st u i) := by
  obtain ⟨hp, h3, hlen, h0, hfill⟩ := hwf
  have hvr := table_hval_range st u h3
  refine ⟨hp, h3, ?_, ?_, ?_⟩
  · show (st.htab_table.set i ⟨table_hval st u, u⟩).length = st.htab_size + 1
    rw [List.length_set]
    exact hlen
  · show ((st.htab_table.set i ⟨table_hval st u, u⟩).getD 0 empty_entry).used = 0
    rw [getD_set_ne _ _ _ _ _ (show i ≠ 0 by omega)]
    exact h0
  · show st.htab_filled + 1 = usedCount (insertState st u i)
    have hstep := usedCount_set st.htab_size st.htab_table st.htab_filled
      (st.htab_filled + 1) i ⟨table_hval st u, u⟩ hi1 hi2 hfree
      (show (htab_entry.mk (table_hval st u) u).used ≠ 0 by
        show table_hval st u ≠ 0
        omega)
      (by omega)
    calc st.htab_filled + 1 = usedCount st + 1 := by rw [hfill]
      _ = usedCount (insertState st u i) := by
          rw [show usedCount (insertState st u i) =
            usedCount ⟨st.htab_size, st.htab_table.set i ⟨table_hval st u, u⟩,
              st.htab_filled + 1⟩ from rfl]
          rw [hstep]

theorem WF_htab_hash (st : HtabState) (u : List Nat) (hwf : WF st) :
    WF (htab_hash st u).2 := by
  rcases htab_hash_spec st u hwf with ⟨heq, -⟩ | ⟨j, heq, -, -, -, -⟩ |
    ⟨j, hj1, hj2, hj0, -, heq, -⟩
  · rw [heq]
    exact hwf
  · rw [heq]
    exact hwf
  · rw [heq]
    exact WF_insertState st u j hwf hj1 hj2 hj0

/-- `st2` extends `st`: same size, same array length, and every slot
occupied in `st` is unchanged in `st2`. -/
def Ext (st st2 : HtabState) : Prop :=
  st2.htab_size = st.htab_size ∧ st2.htab_table.length = st.htab_table.length ∧
  ∀ j, (st.htab_table.getD j empty_entry).used ≠ 0 →
    st2.htab_table.getD j empty_entry = st.htab_table.getD j empty_entry

theorem Ext_refl (st : HtabState) : Ext st st :=
  ⟨rfl, rfl, fun _ _ => rfl⟩

theorem Ext_trans {a b c : HtabState} (hab : Ext a b) (hbc : Ext b c) : Ext a c := by
  refine ⟨hbc.1.trans hab.1, hbc.2.1.trans hab.2.1, ?_⟩
  intro j hj
  have hb := hab.2.2 j hj
  have hbu : (b.htab_table.getD j empty_entry).used ≠ 0 := by
    rw [hb]
    exact hj
  rw [hbc.2.2 j hbu, hb]

theorem Ext_htab_hash (st : HtabState) (u : List Nat) (hwf : WF st) :
    Ext st (htab_hash st u).2 := by
  rcases htab_hash_spec st u hwf with ⟨heq, -⟩ | ⟨j, heq, -, -, -, -⟩ |
    ⟨j, hj1, hj2, hj0, -, heq, -⟩
  · rw [heq]
    exact Ext_refl st
  · rw [heq]
    exact Ext_refl st
  · rw [heq]
    refine ⟨rfl, ?_, ?_⟩
    · show (st.htab_table.set j ⟨table_hval st u, u⟩).length = st.htab_table.length
      exact List.length_set st.htab_table _ _
    · intro k hk
      have hkj : j ≠ k := by
        intro heq2
        rw [heq2] at hj0
        exact hk hj0
      exact getD_set_ne _ _ _ _ _ hkj

theorem WF_Ext_insertAll (ts : List (List Nat)) :
    ∀ st, WF st → WF (insertAll st ts).1 ∧ Ext st (insertAll st ts).1 := by
  induction ts with
  | nil =>
    intro st h
    exact ⟨h, Ext_refl st⟩
  | cons t rest ih =>
    intro st h
    have h1 := WF_htab_hash st t h
    have he := Ext_htab_hash st t h
    have hrec := ih (htab_hash st t).2 h1
    constructor
    · exact hrec.1
    · exact Ext_trans he hrec.2

/-- After a successful find-or-insert of `u`, an immediate repeat of the
call returns the same slot and leaves the state unchanged. -/
theorem htab_hash_self (st : HtabState) (u : List Nat) (i : Nat) (hwf : WF st)
    (h1 : (htab_hash st u).1 = i) (hne : i ≠ 0) :
    htab_hash (htab_hash st u).2 u = (i, (htab_hash st u).2) := by
  rcases htab_hash_spec st u hwf with ⟨heq, -⟩ | ⟨j, heq, -, -, -, -⟩ |
    ⟨j, -, -, -, -, heq, hself⟩
  · rw [heq] at h1
    exact absurd h1.symm hne
  · have hji : j = i := by
      rw [heq] at h1
      exact h1
    have h2 : (htab_hash st u).2 = st := by rw [heq]
    rw [h2, heq, hji]
  · have hji : j = i := by
      rw [heq] at h1
      exact h1
    have h2 : (htab_hash st u).2 = insertState st u j := by rw [heq]
    rw [h2, hself, hji]

/-- A pure find (one that leaves the state unchanged) keeps returning
the same slot in any extension of the state. -/
theorem htab_hash_found_ext (st st2 : HtabState) (u : List Nat) (i : Nat)
    (h3 : 3 ≤ st.htab_size) (hfind : htab_hash st u = (i, st)) (hne : i ≠ 0)
    (hext : Ext st st2) : (htab_hash st2 u).1 = i := by
  have hvr := table_hval_range st u h3
  have hvne0 : table_hval st u ≠ 0 := by omega
  have hv2 : table_hval st2 u = table_hval st u := by
    unfold table_hval
    rw [hext.1]
  have hv22 : table_hval2 st2 u = table_hval2 st u := by
    unfold table_hval2
    rw [hv2, hext.1]
  cases hout : probeOut st u with
  | noFuel =>
    exfalso
    have : htab_hash st u = (0, st) := by
      unfold htab_hash
      rw [hout]
      rfl
    rw [hfind] at this
    exact hne (congrArg Prod.fst this)
  | insertAt j =>
    exfalso
    have hfp : htab_hash st u = finishProbe st u (.insertAt j) := by
      unfold htab_hash
      rw [hout]
    by_cases hfull : st.htab_size ≤ st.htab_filled
    · rw [hfind] at hfp
      simp only [finishProbe] at hfp
      rw [if_pos hfull] at hfp
      exact hne (congrArg Prod.fst hfp)
    · rw [hfind] at hfp
      simp only [finishProbe] at hfp
      rw [if_neg hfull] at hfp
      have hsnd := congrArg Prod.snd hfp
      have : st.htab_filled = st.htab_filled + 1 := congrArg HtabState.htab_filled hsnd
      omega
  | found j =>
    have hji : j = i := by
      have : htab_hash st u = (j, st) := by
        unfold htab_hash
        rw [hout]
        rfl
      rw [hfind] at this
      exact (congrArg Prod.fst this).symm
    subst hji
    unfold probeOut at hout
    by_cases hcA : (st.htab_table.getD (table_hval st u) empty_entry).used ≠ 0
    · rw [if_pos hcA] at hout
      have hgd := hext.2.2 (table_hval st u) hcA
      by_cases hcB : (st.htab_table.getD (table_hval st u) empty_entry).used =
          table_hval st u ∧ (st.htab_table.getD (table_hval st u) empty_entry).str = u
      · rw [if_pos hcB] at hout
        have hjv : table_hval st u = j := by
          simpa using hout
        have hout2 : probeOut st2 u = .found j := by
          unfold probeOut
          rw [hv2, hgd, if_pos hcA, if_pos hcB]
          rw [hjv]
        unfold htab_hash
        rw [hout2]
        rfl
      · rw [if_neg hcB] at hout
        have hrep := probeLoop_found_ext st.htab_table st2.htab_table u (table_hval st u)
          (table_hval2 st u) st.htab_size hvne0 hext.2.2 (st.htab_size + 2)
          (table_hval st u) j hout
        have hout2 : probeOut st2 u = .found j := by
          unfold probeOut
          rw [hv2, hgd, if_pos hcA, if_neg hcB, hv22, hext.1]
          exact hrep
        unfold htab_hash
        rw [hout2]
        rfl
    · rw [if_neg hcA] at hout
      simp at hout

theorem getD_replicate {α : Type} (n i : Nat) (a d : α) (h : i < n) :
    (List.replicate n a).getD i d = a := by
  rw [List.getD_eq_getElem?_getD, List.getElem?_replicate, if_pos h]
  rfl

/-- A string is stored in the table: some slot in `1..htab_size` is
occupied and holds it. -/
def memTable (st : HtabState) (u : List Nat) : Prop :=
  ∃ j, 1 ≤ j ∧ j ≤ st.htab_size ∧ (st.htab_table.getD j empty_entry).used ≠ 0 ∧
    (st.htab_table.getD j empty_entry).str = u

/-- A freshly created table of capacity `p`: `p + 1` zeroed slots. -/
def freshTable (p : Nat) : HtabState :=
  ⟨p, List.replicate (p + 1) empty_entry, 0⟩

theorem WF_freshTable (p : Nat) (hp : p.Prime) (h3 : 3 ≤ p) : WF (freshTable p) := by
  refine ⟨hp, h3, by simp [freshTable], ?_, ?_⟩
  · show ((List.replicate (p + 1) empty_entry).getD 0 empty_entry).used = 0
    rw [getD_replicate _ _ _ _ (by omega)]
    rfl
  · show 0 = usedCount (freshTable p)
    unfold usedCount
    rw [Finset.filter_false_of_mem, Finset.card_empty]
    intro k hk
    have hkr := Finset.mem_range.mp hk
    have hsz : (freshTable p).htab_size = p := rfl
    rw [hsz] at hkr
    show ¬(((List.replicate (p + 1) empty_entry).getD (k + 1) empty_entry).used ≠ 0)
    rw [getD_replicate _ _ _ _ (by omega)]
    simp [empty_entry]

theorem memTable_fresh (p : Nat) (u : List Nat) : ¬ memTable (freshTable p) u := by
  rintro ⟨j, hj1, hj2, hju, -⟩
  have hsz : (freshTable p).htab_size = p := rfl
  rw [hsz] at hj2
  apply hju
  show ((List.replicate (p + 1) empty_entry).getD j empty_entry).used = 0
  rw [getD_replicate _ _ _ _ (by omega)]
  rfl

/-- Behaviour of a find-or-insert on a string not currently stored:
below capacity it performs a genuine insert (nonzero result, filled
count up by one, stored strings extended by exactly `u`); at capacity it
fails with 0 and leaves the state untouched. -/
theorem htab_hash_not_found (st : HtabState) (u : List Nat) (hwf : WF st)
    (hnm : ¬ memTable st u) :
    (st.htab_filled < st.htab_size →
      (htab_hash st u).1 ≠ 0 ∧
      (htab_hash st u).2.htab_filled = st.htab_filled + 1 ∧
      WF (htab_hash st u).2 ∧
      (∀ v, memTable (htab_hash st u).2 v → memTable st v ∨ v = u)) ∧
    (st.htab_size ≤ st.htab_filled → htab_hash st u = (0, st)) := by
  have h3 := hwf.2.1
  have hvr := table_hval_range st u h3
  rcases htab_hash_spec st u hwf with ⟨heq, hfull⟩ | ⟨j, heq, hj1, hj2, hju, hjs⟩ |
    ⟨j, hj1, hj2, hj0, hlt, heq, -⟩
  · constructor
    · intro hlt
      omega
    · intro _
      exact heq
  · exfalso
    exact hnm ⟨j, hj1, hj2, by rw [hju]; omega, hjs⟩
  · constructor
    · intro _
      refine ⟨by rw [heq]; omega, by rw [heq]; rfl, ?_, ?_⟩
      · have := WF_htab_hash st u hwf
        exact this
      · intro v hv
        rw [heq] at hv
        obtain ⟨k, hk1, hk2, hku, hks⟩ := hv
        by_cases hkj : k = j
        · subst hkj
          right
          have hgd : (insertState st u k).htab_table.getD k empty_entry =
              ⟨table_hval st u, u⟩ := by
            show (st.htab_table.set k ⟨table_hval st u, u⟩).getD k empty_entry = _
            exact getD_set_self _ _ _ _ (by
              have := hwf.2.2.1
              omega)
          rw [hgd] at hks
          exact hks.symm
        · left
          have hgd : (insertState st u j).htab_table.getD k empty_entry =
              st.htab_table.getD k empty_entry := by
            show (st.htab_table.set j ⟨table_hval st u, u⟩).getD k empty_entry = _
            exact getD_set_ne _ _ _ _ _ (fun h => hkj h.symm)
          rw [hgd] at hku hks
          exact ⟨k, hk1, by
            have hsz : (insertState st u j).htab_size = st.htab_size := rfl
            rw [hsz] at hk2
            exact hk2, hku, hks⟩
    · intro hge
      omega

/-- Folding find-or-insert over fresh distinct strings within capacity:
every call succeeds, the filled count grows by one per call, and the
stored strings stay within the inserted set. -/
theorem insertAll_insert_spec (ss : List (List Nat)) :
    ∀ st : HtabState, WF st → (∀ u ∈ ss, ¬ memTable st u) → ss.Nodup →
      st.htab_filled + ss.length ≤ st.htab_size →
      WF (insertAll st ss).1 ∧
      (insertAll st ss).1.htab_filled = st.htab_filled + ss.length ∧
      (∀ r ∈ (insertAll st ss).2, r ≠ 0) ∧
      (∀ v, memTable (insertAll st ss).1 v → memTable st v ∨ v ∈ ss) := by
  induction ss with
  | nil =>
    intro st hwf _ _ _
    refine ⟨hwf, by simp [insertAll], by simp [insertAll], ?_⟩
    intro v hv
    exact Or.inl (by simpa [insertAll] using hv)
  | cons t rest ih =>
    intro st hwf hnm hnd hcap
    have hnmt : ¬ memTable st t := hnm t (by simp)
    have hlencons : (t :: rest).length = rest.length + 1 := rfl
    have hlt : st.htab_filled < st.htab_size := by
      rw [hlencons] at hcap
      omega
    obtain ⟨hne0, hfl, hwf1, hpres⟩ := (htab_hash_not_found st t hwf hnmt).1 hlt
    have hnm1 : ∀ u ∈ rest, ¬ memTable (htab_hash st t).2 u := by
      intro u hu hmem
      rcases hpres u hmem with h | h
      · exact hnm u (by simp [hu]) h
      · subst h
        exact (List.nodup_cons.mp hnd).1 hu
    have hsz : (htab_hash st t).2.htab_size = st.htab_size :=
      (Ext_htab_hash st t hwf).1
    have hcap1 : (htab_hash st t).2.htab_filled + rest.length ≤
        (htab_hash st t).2.htab_size := by
      rw [hfl, hsz]
      rw [hlencons] at hcap
      omega
    obtain ⟨ha, hb, hc, hd⟩ := ih (htab_hash st t).2 hwf1 hnm1
      (List.nodup_cons.mp hnd).2 hcap1
    refine ⟨ha, ?_, ?_, ?_⟩
    · show (insertAll (htab_hash st t).2 rest).1.htab_filled =
        st.htab_filled + (t :: rest).length
      rw [hb, hfl, hlencons]
      omega
    · intro r hr
      have hr2 : r ∈ (htab_hash st t).1 :: (insertAll (htab_hash st t).2 rest).2 := hr
      rcases List.mem_cons.mp hr2 with h | h
      · rw [h]
        exact hne0
      · exact hc r h
    · intro v hv
      have hv2 : memTable (insertAll (htab_hash st t).2 rest).1 v := hv
      rcases hd v hv2 with h | h
      · rcases hpres v h with h2 | h2
        · exact Or.inl h2
        · exact Or.inr (by simp [h2])
      · exact Or.inr (by simp [h])

/-- C3: if a find-or-insert of `s` on a well-formed table succeeds with
nonzero slot index `i`, then after any number of successful inserts of
other pairwise-distinct strings, a later find-or-insert of `s` still
returns the same index `i`. -/
theorem htab_hash_stable (st : HtabState) (s : List Nat) (i : Nat) (hwf : WF st)
    (hfirst : (htab_hash st s).1 = i) (hne : i ≠ 0) (ts : List (List Nat))
    (hdist : ts.Nodup) (hother : ∀ t ∈ ts, t ≠ s)
    (hsucc : ∀ r ∈ (insertAll (htab_hash st s).2 ts).2, r ≠ 0) :
    (htab_hash (insertAll (htab_hash st s).2 ts).1 s).1 = i := by
  have hwf1 := WF_htab_hash st s hwf
  have hself := htab_hash_self st s i hwf hfirst hne
  have h3 : 3 ≤ (htab_hash st s).2.htab_size := hwf1.2.1
  obtain ⟨hwf2, hext⟩ := WF_Ext_insertAll ts (htab_hash st s).2 hwf1
  exact htab_hash_found_ext (htab_hash st s).2 (insertAll (htab_hash st s).2 ts).1
    s i h3 hself hne hext

/-- Witness for `htab_hash_stable`: in a fresh 5-slot table, `[1]` gets
slot 4; after inserting `[7]` and `[8]`, looking up `[1]` still gives 4. -/
theorem htab_hash_stable_w :
    (htab_hash (freshTable 5) [1]).1 = 4 ∧
    ([[7], [8]] : List (List Nat)).Nodup ∧
    (htab_hash (insertAll (htab_hash (freshTable 5) [1]).2 [[7], [8]]).1 [1]).1 = 4 :=
  ⟨by decide, by decide,
    htab_hash_stable (freshTable 5) [1] 4
      (WF_freshTable 5 (by norm_num) (by norm_num)) (by decide) (by decide)
      [[7], [8]] (by decide) (by decide) (by decide)⟩

/-- C4: starting from a fresh table of prime capacity `p`, inserting `p`
pairwise-distinct strings succeeds for each of them (all returned slot
indices are nonzero), and a further find-or-insert of a `(p+1)`-th
distinct string not already in the table fails with the 0 sentinel and
leaves the filled count and the slot array unchanged. -/
theorem htab_table_full (p : Nat) (hp : p.Prime) (h3 : 3 ≤ p)
    (ss : List (List Nat)) (hlen : ss.length = p) (hnd : ss.Nodup)
    (t : List Nat) (ht : t ∉ ss) :
    (∀ r ∈ (insertAll (freshTable p) ss).2, r ≠ 0) ∧
    htab_hash (insertAll (freshTable p) ss).1 t =
      (0, (insertAll (freshTable p) ss).1) := by
  have hwf := WF_freshTable p hp h3
  have hcap : (freshTable p).htab_filled + ss.length ≤ (freshTable p).htab_size := by
    have h1 : (freshTable p).htab_filled = 0 := rfl
    have h2 : (freshTable p).htab_size = p := rfl
    rw [h1, h2, hlen]
    omega
  obtain ⟨ha, hb, hc, hd⟩ := insertAll_insert_spec ss (freshTable p) hwf
    (fun u _ => memTable_fresh p u) hnd hcap
  refine ⟨hc, ?_⟩
  have hnmt : ¬ memTable (insertAll (freshTable p) ss).1 t := by
    intro hm
    rcases hd t hm with h | h
    · exact memTable_fresh p t h
    · exact ht h
  have hszeq : (insertAll (freshTable p) ss).1.htab_size = p :=
    ((WF_Ext_insertAll ss (freshTable p) hwf).2.1).trans rfl
  have hfull : (insertAll (freshTable p) ss).1.htab_size ≤
      (insertAll (freshTable p) ss).1.htab_filled := by
    rw [hb, hszeq]
    have h1 : (freshTable p).htab_filled = 0 := rfl
    rw [h1, hlen]
    omega
  exact (htab_hash_not_found _ t ha hnmt).2 hfull

/-- Witness for `htab_table_full` at `p = 5` with the five one-byte
strings `[1]`..`[5]` and the sixth string `[6]`. -/
theorem htab_table_full_w :
    (Nat.Prime 5 ∧ ([[1], [2], [3], [4], [5]] : List (List Nat)).Nodup ∧
      ([6] : List Nat) ∉ [[1], [2], [3], [4], [5]]) ∧
    ((∀ r ∈ (insertAll (freshTable 5) [[1], [2], [3], [4], [5]]).2, r ≠ 0) ∧
      htab_hash (insertAll (freshTable 5) [[1], [2], [3], [4], [5]]).1 [6] =
        (0, (insertAll (freshTable 5) [[1], [2], [3], [4], [5]]).1)) :=
  ⟨⟨by norm_num, by decide, by decide⟩,
    htab_table_full 5 (by norm_num) (by norm_num)
      [[1], [2], [3], [4], [5]] (by decide) (by decide) [6] (by decide)⟩

/-! ### `wince_init`: first-init acquisition and rollback

The acquisition steps of the first init and the cleanup block under
`init_exit:` are embedded with an oracle saying which OS/driver calls
succeed.  The state tracks which global handles are held and the signed
reference counter `concurrent_usage` (sentinel −1); the trace records
the order of acquisitions and releases. -/

inductive Resource where
  | driver
  | event0
  | event1
  | respSemaphore
  | timerMutex
  | timerThread
  | internTable
deriving DecidableEq

inductive InitAction where
  | acquire (r : Resource)
  | release (r : Resource)
deriving DecidableEq

structure InitOracle where
  dllOk : Bool
  driverOk : Bool
  ev0Ok : Bool
  ev1Ok : Bool
  respOk : Bool
  mutexOk : Bool
  threadOk : Bool
  htabOk : Bool
deriving DecidableEq

structure WinceGlobals where
  concurrent_usage : Int
  driver_handle : Bool
  timer_request0 : Bool
  timer_request1 : Bool
  timer_response : Bool
  timer_mutex : Bool
  timer_thread : Bool
  htab_table : Bool
deriving DecidableEq

/-- The pristine global state before any init: counter at the −1
sentinel, no handle held. -/
def initial_globals : WinceGlobals :=
  ⟨-1, false, false, false, false, false, false, false⟩

/-- The first-init acquisition sequence (the body of
`if (++concurrent_usage == 0)`), unrolled over the oracle: DLL imports,
driver open, the two events, the response semaphore, the timer mutex,
the timer thread, then `htab_create` — whose return value the source
ignores (a `calloc` failure leaves `htab_table == NULL` but the function
still reaches `r = LIBUSB_SUCCESS`). -/
def wince_init_acquire (g : WinceGlobals) (o : InitOracle) :
    Int × WinceGlobals × List InitAction :=
  if !o.dllOk then (LIBUSB_ERROR_NOT_SUPPORTED, g, [])
  else if !o.driverOk then (LIBUSB_ERROR_NOT_SUPPORTED, g, [])
  else if !o.ev0Ok then
    (LIBUSB_ERROR_NO_MEM, { g with driver_handle := true }, [.acquire .driver])
  else if !o.ev1Ok then
    (LIBUSB_ERROR_NO_MEM, { g with driver_handle := true, timer_request0 := true },
      [.acquire .driver, .acquire .event0])
  else if !o.respOk then
    (LIBUSB_ERROR_NO_MEM,
      { g with driver_handle := true, timer_request0 := true, timer_request1 := true },
      [.acquire .driver, .acquire .event0, .acquire .event1])
  else if !o.mutexOk then
    (LIBUSB_ERROR_NO_MEM,
      { g with driver_handle := true, timer_request0 := true, timer_request1 := true,
               timer_response := true },
      [.acquire .driver, .acquire .event0, .acquire .event1, .acquire .respSemaphore])
  else if !o.threadOk then
    (LIBUSB_ERROR_NO_MEM,
      { g with driver_handle := true, timer_request0 := true, timer_request1 := true,
               timer_response := true, timer_mutex := true },
      [.acquire .driver, .acquire .event0, .acquire .event1, .acquire .respSemaphore,
        .acquire .timerMutex])
  else if o.htabOk then
    (LIBUSB_SUCCESS,
      { g with driver_handle := true, timer_request0 := true, timer_request1 := true,
               timer_response := true, timer_mutex := true, timer_thread := true,
               htab_table := true },
      [.acquire .driver, .acquire .event0, .acquire .event1, .acquire .respSemaphore,
        .acquire .timerMutex, .acquire .timerThread, .acquire .internTable])
  else
    (LIBUSB_SUCCESS,
      { g with driver_handle := true, timer_request0 := true, timer_request1 := true,
               timer_response := true, timer_mutex := true, timer_thread := true },
      [.acquire .driver, .acquire .event0, .acquire .event1, .acquire .respSemaphore,
        .acquire .timerMutex, .acquire .timerThread])

/-- The cleanup block at `init_exit:`, in the source's order: close the
driver handle first, then stop and close the timer thread, close the two
events, the response semaphore, the timer mutex, and destroy the hash
table — each only if currently held. -/
def wince_init_cleanup (g : WinceGlobals) : WinceGlobals × List InitAction :=
  let s1 : WinceGlobals × List InitAction :=
    if g.driver_handle then
      ({ g with driver_handle := false }, [InitAction.release .driver])
    else (g, [])
  let s2 : WinceGlobals × List InitAction :=
    if s1.1.timer_thread then
      ({ s1.1 with timer_thread := false }, s1.2 ++ [InitAction.release .timerThread])
    else s1
  let s3 : WinceGlobals × List InitAction :=
    if s2.1.timer_request0 then
      ({ s2.1 with timer_request0 := false }, s2.2 ++ [InitAction.release .event0])
    else s2
  let s4 : WinceGlobals × List InitAction :=
    if s3.1.timer_request1 then
      ({ s3.1 with timer_request1 := false }, s3.2 ++ [InitAction.release .event1])
    else s3
  let s5 : WinceGlobals × List InitAction :=
    if s4.1.timer_response then
      ({ s4.1 with timer_response := false }, s4.2 ++ [InitAction.release .respSemaphore])
    else s4
  let s6 : WinceGlobals × List InitAction :=
    if s5.1.timer_mutex then
      ({ s5.1 with timer_mutex := false }, s5.2 ++ [InitAction.release .timerMutex])
    else s5
  let s7 : WinceGlobals × List InitAction :=
    if s6.1.htab_table then
      ({ s6.1 with htab_table := false }, s6.2 ++ [InitAction.release .internTable])
    else s6
  s7

/-- `wince_init`: increment the counter; on the −1→0 transition run the
full acquisition; on a non-success result run the cleanup block and
decrement the counter back.  Returns the libusb result code, the final
globals, and the acquire/release trace. -/
def wince_init (g : WinceGlobals) (o : InitOracle) :
    Int × WinceGlobals × List InitAction :=
  let usage := g.concurrent_usage + 1
  let g0 := { g with concurrent_usage := usage }
  if usage = 0 then
    let a := wince_init_acquire g0 o
    if a.1 ≠ LIBUSB_SUCCESS then
      let c := wince_init_cleanup a.2.1
      (a.1, { c.1 with concurrent_usage := c.1.concurrent_usage - 1 }, a.2.2 ++ c.2)
    else (a.1, a.2.1, a.2.2)
  else (LIBUSB_SUCCESS, g0, [])

def acquires (tr : List InitAction) : List Resource :=
  tr.filterMap fun a =>
    match a with
    | .acquire r => some r
    | .release _ => none

def releases (tr : List InitAction) : List Resource :=
  tr.filterMap fun a =>
    match a with
    | .acquire _ => none
    | .release r => some r

/-- The oracle in which only thread creation fails. -/
def oracle_thread_fail : InitOracle := ⟨true, true, true, true, true, true, false, true⟩

/-- The oracle in which only `htab_create` (its `calloc`) fails. -/
def oracle_htab_fail : InitOracle := ⟨true, true, true, true, true, true, true, false⟩

/-- C5 (counterexample): with every acquisition succeeding except
`htab_create`'s allocation, the first init reports success and leaves
the counter at 0 — the intern-table creation failure is not detected, no
rollback happens, no failure code is reported.  Moreover, with thread
creation failing, all acquired objects are released but not in strict
reverse acquisition order: the driver handle, acquired first, is also
closed first. -/
theorem wince_init_no_rollback_on_htab :
    ((wince_init initial_globals oracle_htab_fail).1 = LIBUSB_SUCCESS ∧
      (wince_init initial_globals oracle_htab_fail).2.1.concurrent_usage = 0) ∧
    releases (wince_init initial_globals oracle_thread_fail).2.2 ≠
      (acquires (wince_init initial_globals oracle_thread_fail).2.2).reverse := by
  decide

/-- C5 (amended): during a first init, if DLL-import resolution, driver
open, either event creation, response-semaphore creation, mutex creation
or thread creation fails, then every object acquired earlier in that
attempt is released (the driver handle first, then the remaining objects
in the cleanup block's fixed order — not strict reverse acquisition
order), the reference counter returns to the −1 sentinel and a failure
code is reported, so no partially initialized state remains observable;
an intern-table creation failure, however, is ignored: init reports
success. -/
theorem wince_init_rollback (o : InitOracle)
    (hfail : ¬(o.dllOk ∧ o.driverOk ∧ o.ev0Ok ∧ o.ev1Ok ∧ o.respOk ∧ o.mutexOk ∧
      o.threadOk)) :
    (wince_init initial_globals o).1 ≠ LIBUSB_SUCCESS ∧
    (wince_init initial_globals o).2.1 = initial_globals ∧
    (releases (wince_init initial_globals o).2.2).Perm
      (acquires (wince_init initial_globals o).2.2) := by
  obtain ⟨a, b, c, d, e, f, g, h⟩ := o
  revert a b c d e f g h
  decide

/-- Witness for `wince_init_rollback` at the thread-creation failure. -/
theorem wince_init_rollback_w :
    (¬(oracle_thread_fail.dllOk ∧ oracle_thread_fail.driverOk ∧
        oracle_thread_fail.ev0Ok ∧ oracle_thread_fail.ev1Ok ∧
        oracle_thread_fail.respOk ∧ oracle_thread_fail.mutexOk ∧
        oracle_thread_fail.threadOk)) ∧
    ((wince_init initial_globals oracle_thread_fail).1 ≠ LIBUSB_SUCCESS ∧
      (wince_init initial_globals oracle_thread_fail).2.1 = initial_globals ∧
      (releases (wince_init initial_globals oracle_thread_fail).2.2).Perm
        (acquires (wince_init initial_globals oracle_thread_fail).2.2)) :=
  ⟨by decide, wince_init_rollback oracle_thread_fail (by decide)⟩

/-! ### Claim theorems about the clock service caller side and stubs -/

theorem monotonic_loop_cases (tp : timespec) : ∀ ws : List WaitOutcome,
    ((∀ w ∈ ws, w = WaitOutcome.timeout) → (monotonic_loop tp ws).1 = none) ∧
    ((monotonic_loop tp ws).1 = some (LIBUSB_ERROR_OTHER, none) ↔
      ws.find? (fun w => decide (w ≠ WaitOutcome.timeout)) = some WaitOutcome.failed) := by
  intro ws
  induction ws with
  | nil =>
    constructor
    · intro _
      rfl
    · simp [monotonic_loop]
  | cons w rest ih =>
    cases w with
    | object0 =>
      constructor
      · intro hall
        exact absurd (hall .object0 (by simp)) (by simp)
      · constructor
        · intro h
          exfalso
          have : (some (LIBUSB_SUCCESS, some tp) :
              Option (Int × Option timespec)) = some (LIBUSB_ERROR_OTHER, none) := h
          simp at this
        · intro h
          simp [List.find?] at h
    | failed =>
      constructor
      · intro hall
        exact absurd (hall .failed (by simp)) (by simp)
      · constructor
        · intro _
          simp [List.find?]
        · intro _
          rfl
    | timeout =>
      have hfst : (monotonic_loop tp (WaitOutcome.timeout :: rest)).1 =
          (monotonic_loop tp rest).1 := rfl
      constructor
      · intro hall
        rw [hfst]
        exact ih.1 (fun x hx => hall x (by simp [hx]))
      · rw [hfst]
        have hfind : (WaitOutcome.timeout :: rest).find?
            (fun w => decide (w ≠ WaitOutcome.timeout)) =
            rest.find? (fun w => decide (w ≠ WaitOutcome.timeout)) := by
          simp [List.find?]
        rw [hfind]
        exact ih.2

/-- C6: for a monotonic query while the hardware frequency is available,
a wait timeout is never surfaced to the caller: if every wait outcome is
a timeout the loop is still retrying (no return), and the call returns
`LIBUSB_ERROR_OTHER` if and only if the first non-timeout outcome of the
wait primitive is a failure (not a success). -/
theorem clock_gettime_timeout_retry (env : ClockEnv) (hfreq : env.hires_frequency ≠ 0) :
    ((∀ w ∈ env.waits, w = WaitOutcome.timeout) →
      (wince_clock_gettime env .monotonic).1 = none) ∧
    ((wince_clock_gettime env .monotonic).1 = some (LIBUSB_ERROR_OTHER, none) ↔
      env.waits.find? (fun w => decide (w ≠ WaitOutcome.timeout)) =
        some WaitOutcome.failed) := by
  have hm : wince_clock_gettime env .monotonic = monotonic_loop env.timer_tp env.waits := by
    unfold wince_clock_gettime
    rw [if_pos hfreq]
  rw [hm]
  exact monotonic_loop_cases env.timer_tp env.waits

/-- A concrete environment with a hardware counter and a wait sequence
timeout-then-failure. -/
def env_hires : ClockEnv :=
  ⟨1000, 0, ⟨7, 8⟩, [WaitOutcome.timeout, WaitOutcome.failed]⟩

/-- Witness for `clock_gettime_timeout_retry` on `env_hires`. -/
theorem clock_gettime_timeout_retry_w :
    env_hires.hires_frequency ≠ 0 ∧
    (((∀ w ∈ env_hires.waits, w = WaitOutcome.timeout) →
      (wince_clock_gettime env_hires .monotonic).1 = none) ∧
    ((wince_clock_gettime env_hires .monotonic).1 = some (LIBUSB_ERROR_OTHER, none) ↔
      env_hires.waits.find? (fun w => decide (w ≠ WaitOutcome.timeout)) =
        some WaitOutcome.failed)) :=
  ⟨by decide, clock_gettime_timeout_retry env_hires (by decide)⟩

/-- C7: with no hardware counter frequency (`hires_frequency = 0`), a
monotonic clock query returns exactly what a realtime query returns —
seconds and nanoseconds derived from system time relative to the 1970
epoch — with success, and performs no hand-off to the worker thread (no
counter increment, no event signal, no semaphore wait). -/
theorem clock_gettime_no_hires_fallback (env : ClockEnv) (h : env.hires_frequency = 0) :
    wince_clock_gettime env .monotonic = wince_clock_gettime env .realtime ∧
    wince_clock_gettime env .monotonic =
      (some (LIBUSB_SUCCESS, some (realtime_timespec env.filetime)), []) := by
  unfold wince_clock_gettime
  rw [if_neg (show ¬env.hires_frequency ≠ 0 by omega)]
  exact ⟨rfl, rfl⟩

/-- A concrete environment with no hardware counter. -/
def env_nohires : ClockEnv := ⟨0, epoch_time + 12345678901, ⟨0, 0⟩, []⟩

/-- Witness for `clock_gettime_no_hires_fallback` on `env_nohires`. -/
theorem clock_gettime_no_hires_fallback_w :
    env_nohires.hires_frequency = 0 ∧
    (wince_clock_gettime env_nohires .monotonic =
        wince_clock_gettime env_nohires .realtime ∧
      wince_clock_gettime env_nohires .monotonic =
        (some (LIBUSB_SUCCESS, some (realtime_timespec env_nohires.filetime)), [])) :=
  ⟨rfl, clock_gettime_no_hires_fallback env_nohires rfl⟩

/-- C10: every clock id other than the monotonic and realtime ids makes
`wince_clock_gettime` return `LIBUSB_ERROR_INVALID_PARAM`, with no field
of the caller's timestamp written and no side effect. -/
theorem clock_gettime_invalid_param (env : ClockEnv) (c : Int) :
    wince_clock_gettime env (.otherId c) =
      (some (LIBUSB_ERROR_INVALID_PARAM, none), []) := rfl

/-- C8: each of the eight stubbed operations returns
`LIBUSB_ERROR_NOT_SUPPORTED` on every input, with no other effect. -/
theorem stubs_not_supported (handle itransfer ctx : Nat)
    (interface_number num_ready : Int) (fds : List Nat) (nfds : Nat) :
    wince_reset_device handle = LIBUSB_ERROR_NOT_SUPPORTED ∧
    wince_kernel_driver_active handle interface_number = LIBUSB_ERROR_NOT_SUPPORTED ∧
    wince_detach_kernel_driver handle interface_number = LIBUSB_ERROR_NOT_SUPPORTED ∧
    wince_attach_kernel_driver handle interface_number = LIBUSB_ERROR_NOT_SUPPORTED ∧
    wince_submit_transfer itransfer = LIBUSB_ERROR_NOT_SUPPORTED ∧
    wince_cancel_transfer itransfer = LIBUSB_ERROR_NOT_SUPPORTED ∧
    wince_clear_transfer_priv itransfer = LIBUSB_ERROR_NOT_SUPPORTED ∧
    wince_handle_events ctx fds nfds num_ready = LIBUSB_ERROR_NOT_SUPPORTED :=
  ⟨rfl, rfl, rfl, rfl, rfl, rfl, rfl, rfl⟩

end WinceUsb
